import Mathlib

/-!
Verification of the packed-pixel raster toolkit (leptonica core) against its
natural-language specification.  The definitions below are a shallow embedding
of the C sources: `grayquantlow.c` (Floyd-Steinberg dithering), `pix3.c`
(boolean raster ops, pixel counting, histograms, masked averaging),
`rotateorth.c` (orthogonal rotation) and `bilinear.c` (bilinear transform).
Machine integers are modelled as `Nat`/`Int` (C `l_uint8` values are kept in
`[0,255]` by the accessors); `l_float32` arithmetic is modelled exactly over
`ℚ`.  Word-level pixel access follows the documented MSB-first packing
invariant: pixel `x` at depth `d` occupies bits
`[32 - (x mod (32/d) + 1)*d, 32 - (x mod (32/d))*d)` of word `x*d/32`.
-/

namespace Lept

/-! ### Row-buffer model for error-diffusion dithering (grayquantlow.c)

The dithering passes read and write their scratch row buffers exclusively
through the byte accessors `GET_DATA_BYTE` / `SET_DATA_BYTE` (the accessor
macros themselves are not part of the sources here; per the packing invariant
a byte-aligned read of entry `j` returns the `j`-th byte of the row).  We
therefore model a source row as a list of bytes, and a 1 bpp destination line
as a list of booleans (one per pixel). -/

/-- Modelled from the spec: the accessor `GET_DATA_BYTE(buf, j)` returns the
`j`-th 8-bit pixel of a packed row, so on a byte-list row it is entry `j`,
masked to 8 bits. -/
def getByte (buf : List Nat) (j : Nat) : Nat := buf.getD j 0 % 256

/-- Modelled from the spec: `SET_DATA_BYTE(buf, j, v)` stores `v` as the
`j`-th byte of the row. -/
def setByte (buf : List Nat) (j v : Nat) : List Nat := buf.set j v

/-- The C idiom `L_MAX(0, a - b)` on promoted byte values: subtract with
clamping at 0. -/
def clampSub (a b : Nat) : Nat := (max 0 ((a : Int) - (b : Int))).toNat

/-- The C idiom `L_MIN(255, a + b)` on promoted byte values: add with
clamping at 255. -/
def clampAdd (a b : Nat) : Nat := min 255 (a + b)

/-- The C idiom `L_MAX(0, a + t)` where `t` is a (negative) signed amount. -/
def clampAddLo (a : Nat) (t : Int) : Nat := (max 0 ((a : Int) + t)).toNat

/-- The C idiom `L_MIN(255, a + t)` where `t` is a (positive) signed amount. -/
def clampAddHi (a : Nat) (t : Int) : Nat := (min 255 ((a : Int) + t)).toNat

/-- State threaded through the per-line dithering functions: the destination
line (`lined`, one output pixel per entry) and the two source-row buffers
(`bufs1` = current row, `bufs2` = next row). -/
structure LineState where
  lined : List Bool
  bufs1 : List Nat
  bufs2 : List Nat
  deriving Repr, DecidableEq

/-- Loop body of `ditherToBinaryLineLow` for a column `j < w - 1` of a
non-final row (`lastlineflag == 0`), translated from grayquantlow.c. -/
def ditherToBinaryPixel (lowerclip upperclip : Int) (st : LineState) (j : Nat) :
    LineState :=
  let oval := getByte st.bufs1 j
  if 127 < oval then
    let ev := 255 - oval
    if upperclip < (ev : Int) then
      let fval1 := 3 * ev / 8
      let fval2 := ev / 4
      let bufs1 := setByte st.bufs1 (j + 1) (clampSub (getByte st.bufs1 (j + 1)) fval1)
      let bufs2 := setByte st.bufs2 j (clampSub (getByte st.bufs2 j) fval1)
      let bufs2 := setByte bufs2 (j + 1) (clampSub (getByte bufs2 (j + 1)) fval2)
      { st with bufs1 := bufs1, bufs2 := bufs2 }
    else
      st
  else
    let lined := st.lined.set j true
    if lowerclip < (oval : Int) then
      let fval1 := 3 * oval / 8
      let fval2 := oval / 4
      let bufs1 := setByte st.bufs1 (j + 1) (clampAdd (getByte st.bufs1 (j + 1)) fval1)
      let bufs2 := setByte st.bufs2 j (clampAdd (getByte st.bufs2 j) fval1)
      let bufs2 := setByte bufs2 (j + 1) (clampAdd (getByte bufs2 (j + 1)) fval2)
      { lined := lined, bufs1 := bufs1, bufs2 := bufs2 }
    else
      { st with lined := lined }

/-- Last-column code of `ditherToBinaryLineLow` on a non-final row: only the
below neighbor `(bufs2, j)` exists. -/
def ditherToBinaryLastCol (lowerclip upperclip : Int) (st : LineState) (j : Nat) :
    LineState :=
  let oval := getByte st.bufs1 j
  if 127 < oval then
    let ev := 255 - oval
    if upperclip < (ev : Int) then
      let fval1 := 3 * ev / 8
      { st with bufs2 := setByte st.bufs2 j (clampSub (getByte st.bufs2 j) fval1) }
    else
      st
  else
    let lined := st.lined.set j true
    if lowerclip < (oval : Int) then
      let fval1 := 3 * oval / 8
      { st with lined := lined,
                bufs2 := setByte st.bufs2 j (clampAdd (getByte st.bufs2 j) fval1) }
    else
      { st with lined := lined }

/-- Loop body of `ditherToBinaryLineLow` for a column `j < w - 1` of the final
row (`lastlineflag == 1`): only the right neighbor `(bufs1, j+1)` exists. -/
def ditherToBinaryPixelLast (lowerclip upperclip : Int) (st : LineState) (j : Nat) :
    LineState :=
  let oval := getByte st.bufs1 j
  if 127 < oval then
    let ev := 255 - oval
    if upperclip < (ev : Int) then
      let fval1 := 3 * ev / 8
      { st with bufs1 := setByte st.bufs1 (j + 1) (clampSub (getByte st.bufs1 (j + 1)) fval1) }
    else
      st
  else
    let lined := st.lined.set j true
    if lowerclip < (oval : Int) then
      let fval1 := 3 * oval / 8
      { st with lined := lined,
                bufs1 := setByte st.bufs1 (j + 1) (clampAdd (getByte st.bufs1 (j + 1)) fval1) }
    else
      { st with lined := lined }

/-- Last pixel of the image `(h-1, w-1)`: binarize only, no propagation. -/
def ditherToBinaryLastPixel (st : LineState) (j : Nat) : LineState :=
  if getByte st.bufs1 j < 128 then { st with lined := st.lined.set j true } else st

/-- Translation of `ditherToBinaryLineLow` from grayquantlow.c: dispatch
Floyd-Steinberg error diffusion for one line of the image. -/
def ditherToBinaryLineLow (lined : List Bool) (w : Nat) (bufs1 bufs2 : List Nat)
    (lowerclip upperclip : Int) (lastlineflag : Nat) : LineState :=
  if lastlineflag = 0 then
    let st := (List.range (w - 1)).foldl (ditherToBinaryPixel lowerclip upperclip)
      ⟨lined, bufs1, bufs2⟩
    ditherToBinaryLastCol lowerclip upperclip st (w - 1)
  else
    let st := (List.range (w - 1)).foldl (ditherToBinaryPixelLast lowerclip upperclip)
      ⟨lined, bufs1, bufs2⟩
    ditherToBinaryLastPixel st (w - 1)

/-- Full image state threaded through a dithering pass: the 8 bpp source rows
(`datas`, bytes), the 1 bpp destination rows (`datad`), and the two scratch
row buffers. -/
structure DitherState where
  datas : List (List Nat)
  datad : List (List Bool)
  bufs1 : List Nat
  bufs2 : List Nat
  deriving Repr, DecidableEq

/-- One iteration of the row loop of `ditherToBinaryLow`: shift `bufs2` into
`bufs1`, load source row `i+1` into `bufs2`, dither destination line `i`. -/
def ditherToBinaryRow (w : Nat) (lowerclip upperclip : Int)
    (st : DitherState) (i : Nat) : DitherState :=
  let bufs1 := st.bufs2
  let bufs2 := st.datas.getD (i + 1) []
  let ls := ditherToBinaryLineLow (st.datad.getD i []) w bufs1 bufs2
    lowerclip upperclip 0
  { st with datad := st.datad.set i ls.lined, bufs1 := ls.bufs1, bufs2 := ls.bufs2 }

/-- Translation of `ditherToBinaryLow` from grayquantlow.c: prime `bufs2` with
row 0, dither all rows but the last, then do the last row with
`lastlineflag = 1`. -/
def ditherToBinaryLow (w h : Nat) (st0 : DitherState) (lowerclip upperclip : Int) :
    DitherState :=
  let st1 := { st0 with bufs2 := st0.datas.getD 0 [] }
  let st := (List.range (h - 1)).foldl (ditherToBinaryRow w lowerclip upperclip) st1
  let bufs1 := st.bufs2
  let ls := ditherToBinaryLineLow (st.datad.getD (h - 1) []) w bufs1 st.bufs2
    lowerclip upperclip 1
  { st with datad := st.datad.set (h - 1) ls.lined, bufs1 := ls.bufs1, bufs2 := ls.bufs2 }

/-! ### The LUT variant (`ditherToBinaryLUTLow` and its tables) -/

/-- Entry `i` of the three tables built by `make8To1DitherTables` in
grayquantlow.c: output bit value, 3/8 propagation amount, 1/4 propagation
amount.  The negative branch uses C `int` division, which truncates toward
zero (`Int.tdiv`). -/
def make8To1Entry (lowerclip upperclip : Int) (i : Nat) : Nat × Int × Int :=
  if (i : Int) ≤ lowerclip then (1, 0, 0)
  else if i < 128 then (1, ((3 * i + 4) / 8 : Nat), ((i + 2) / 4 : Nat))
  else if (i : Int) < 255 - upperclip then
    (0, Int.tdiv (3 * ((i : Int) - 255) + 4) 8, Int.tdiv (((i : Int) - 255) + 2) 4)
  else (0, 0, 0)

/-- The three 256-entry tables of `make8To1DitherTables`, as functions on the
byte index: `(tabval, tab38, tab14)`. -/
def make8To1DitherTables (lowerclip upperclip : Int) :
    (Nat → Nat) × (Nat → Int) × (Nat → Int) :=
  (fun i => (make8To1Entry lowerclip upperclip i).1,
   fun i => (make8To1Entry lowerclip upperclip i).2.1,
   fun i => (make8To1Entry lowerclip upperclip i).2.2)

/-- Loop body of `ditherToBinaryLineLUTLow` for a column `j < w - 1` of a
non-final row.  The three neighbor bytes are read up front; if the 3/8 table
entry is zero the iteration continues without writing. -/
def ditherLUTPixel (tabval : Nat → Nat) (tab38 tab14 : Nat → Int)
    (st : LineState) (j : Nat) : LineState :=
  let oval := getByte st.bufs1 j
  let lined := if tabval oval ≠ 0 then st.lined.set j true else st.lined
  let rval := getByte st.bufs1 (j + 1)
  let bval := getByte st.bufs2 j
  let dval := getByte st.bufs2 (j + 1)
  let t38 := tab38 oval
  if t38 = 0 then
    { st with lined := lined }
  else
    let t14 := tab14 oval
    let rval := if t38 < 0 then clampAddLo rval t38 else clampAddHi rval t38
    let bval := if t38 < 0 then clampAddLo bval t38 else clampAddHi bval t38
    let dval := if t38 < 0 then clampAddLo dval t14 else clampAddHi dval t14
    { lined := lined,
      bufs1 := setByte st.bufs1 (j + 1) rval,
      bufs2 := setByte (setByte st.bufs2 j bval) (j + 1) dval }

/-- Last-column code of `ditherToBinaryLineLUTLow` on a non-final row. -/
def ditherLUTLastCol (tabval : Nat → Nat) (tab38 : Nat → Int)
    (st : LineState) (j : Nat) : LineState :=
  let oval := getByte st.bufs1 j
  let lined := if tabval oval ≠ 0 then st.lined.set j true else st.lined
  let bval := getByte st.bufs2 j
  let t38 := tab38 oval
  if t38 < 0 then
    { st with lined := lined, bufs2 := setByte st.bufs2 j (clampAddLo bval t38) }
  else if 0 < t38 then
    { st with lined := lined, bufs2 := setByte st.bufs2 j (clampAddHi bval t38) }
  else
    { st with lined := lined }

/-- Loop body of `ditherToBinaryLineLUTLow` for a column `j < w - 1` of the
final row. -/
def ditherLUTPixelLast (tabval : Nat → Nat) (tab38 : Nat → Int)
    (st : LineState) (j : Nat) : LineState :=
  let oval := getByte st.bufs1 j
  let lined := if tabval oval ≠ 0 then st.lined.set j true else st.lined
  let rval := getByte st.bufs1 (j + 1)
  let t38 := tab38 oval
  if t38 = 0 then
    { st with lined := lined }
  else
    let rval := if t38 < 0 then clampAddLo rval t38 else clampAddHi rval t38
    { st with lined := lined, bufs1 := setByte st.bufs1 (j + 1) rval }

/-- Last pixel of the image in the LUT variant: output value only. -/
def ditherLUTLastPixel (tabval : Nat → Nat) (st : LineState) (j : Nat) : LineState :=
  if tabval (getByte st.bufs1 j) ≠ 0 then { st with lined := st.lined.set j true } else st

/-- Translation of `ditherToBinaryLineLUTLow` from grayquantlow.c. -/
def ditherToBinaryLineLUTLow (lined : List Bool) (w : Nat) (bufs1 bufs2 : List Nat)
    (tabval : Nat → Nat) (tab38 tab14 : Nat → Int) (lastlineflag : Nat) : LineState :=
  if lastlineflag = 0 then
    let st := (List.range (w - 1)).foldl (ditherLUTPixel tabval tab38 tab14)
      ⟨lined, bufs1, bufs2⟩
    ditherLUTLastCol tabval tab38 st (w - 1)
  else
    let st := (List.range (w - 1)).foldl (ditherLUTPixelLast tabval tab38)
      ⟨lined, bufs1, bufs2⟩
    ditherLUTLastPixel tabval st (w - 1)

/-- One iteration of the row loop of `ditherToBinaryLUTLow`. -/
def ditherLUTRow (w : Nat) (tabval : Nat → Nat) (tab38 tab14 : Nat → Int)
    (st : DitherState) (i : Nat) : DitherState :=
  let bufs1 := st.bufs2
  let bufs2 := st.datas.getD (i + 1) []
  let ls := ditherToBinaryLineLUTLow (st.datad.getD i []) w bufs1 bufs2
    tabval tab38 tab14 0
  { st with datad := st.datad.set i ls.lined, bufs1 := ls.bufs1, bufs2 := ls.bufs2 }

/-- Translation of `ditherToBinaryLUTLow` from grayquantlow.c. -/
def ditherToBinaryLUTLow (w h : Nat) (st0 : DitherState)
    (tabval : Nat → Nat) (tab38 tab14 : Nat → Int) : DitherState :=
  let st1 := { st0 with bufs2 := st0.datas.getD 0 [] }
  let st := (List.range (h - 1)).foldl (ditherLUTRow w tabval tab38 tab14) st1
  let bufs1 := st.bufs2
  let ls := ditherToBinaryLineLUTLow (st.datad.getD (h - 1) []) w bufs1 st.bufs2
    tabval tab38 tab14 1
  { st with datad := st.datad.set (h - 1) ls.lined, bufs1 := ls.bufs1, bufs2 := ls.bufs2 }

/-! ### Dithering to 2 bpp (`ditherTo2bppLow`) -/

/-- Full image state for the 2 bpp dithering pass: the destination rows hold
2-bit pixel values. -/
structure Dither2State where
  datas : List (List Nat)
  datad : List (List Nat)
  bufs1 : List Nat
  bufs2 : List Nat
  deriving Repr, DecidableEq

/-- State for one line of the 2 bpp pass. -/
structure Line2State where
  lined : List Nat
  bufs1 : List Nat
  bufs2 : List Nat
  deriving Repr, DecidableEq

/-- Loop body of `ditherTo2bppLineLow` for a column `j < w - 1` of a non-final
row; unlike the 1 bpp LUT variant there is no zero-skip, the clamped values
are always written back. -/
def dither2Pixel (tabval : Nat → Nat) (tab38 tab14 : Nat → Int)
    (st : Line2State) (j : Nat) : Line2State :=
  let oval := getByte st.bufs1 j
  let lined := st.lined.set j (tabval oval % 4)
  let rval := getByte st.bufs1 (j + 1)
  let bval := getByte st.bufs2 j
  let dval := getByte st.bufs2 (j + 1)
  let t38 := tab38 oval
  let t14 := tab14 oval
  let rval := if t38 < 0 then clampAddLo rval t38 else clampAddHi rval t38
  let bval := if t38 < 0 then clampAddLo bval t38 else clampAddHi bval t38
  let dval := if t38 < 0 then clampAddLo dval t14 else clampAddHi dval t14
  { lined := lined,
    bufs1 := setByte st.bufs1 (j + 1) rval,
    bufs2 := setByte (setByte st.bufs2 j bval) (j + 1) dval }

/-- Last-column code of `ditherTo2bppLineLow` on a non-final row. -/
def dither2LastCol (tabval : Nat → Nat) (tab38 : Nat → Int)
    (st : Line2State) (j : Nat) : Line2State :=
  let oval := getByte st.bufs1 j
  let lined := st.lined.set j (tabval oval % 4)
  let bval := getByte st.bufs2 j
  let t38 := tab38 oval
  let bval := if t38 < 0 then clampAddLo bval t38 else clampAddHi bval t38
  { st with lined := lined, bufs2 := setByte st.bufs2 j bval }

/-- Loop body of `ditherTo2bppLineLow` for a column `j < w - 1` of the final
row. -/
def dither2PixelLast (tabval : Nat → Nat) (tab38 : Nat → Int)
    (st : Line2State) (j : Nat) : Line2State :=
  let oval := getByte st.bufs1 j
  let lined := st.lined.set j (tabval oval % 4)
  let rval := getByte st.bufs1 (j + 1)
  let t38 := tab38 oval
  let rval := if t38 < 0 then clampAddLo rval t38 else clampAddHi rval t38
  { st with lined := lined, bufs1 := setByte st.bufs1 (j + 1) rval }

/-- Last pixel of the image in the 2 bpp pass: output value only. -/
def dither2LastPixel (tabval : Nat → Nat) (st : Line2State) (j : Nat) : Line2State :=
  { st with lined := st.lined.set j (tabval (getByte st.bufs1 j) % 4) }

/-- Translation of `ditherTo2bppLineLow` from grayquantlow.c. -/
def ditherTo2bppLineLow (lined : List Nat) (w : Nat) (bufs1 bufs2 : List Nat)
    (tabval : Nat → Nat) (tab38 tab14 : Nat → Int) (lastlineflag : Nat) : Line2State :=
  if lastlineflag = 0 then
    let st := (List.range (w - 1)).foldl (dither2Pixel tabval tab38 tab14)
      ⟨lined, bufs1, bufs2⟩
    dither2LastCol tabval tab38 st (w - 1)
  else
    let st := (List.range (w - 1)).foldl (dither2PixelLast tabval tab38)
      ⟨lined, bufs1, bufs2⟩
    dither2LastPixel tabval st (w - 1)

/-- One iteration of the row loop of `ditherTo2bppLow`. -/
def dither2Row (w : Nat) (tabval : Nat → Nat) (tab38 tab14 : Nat → Int)
    (st : Dither2State) (i : Nat) : Dither2State :=
  let bufs1 := st.bufs2
  let bufs2 := st.datas.getD (i + 1) []
  let ls := ditherTo2bppLineLow (st.datad.getD i []) w bufs1 bufs2
    tabval tab38 tab14 0
  { st with datad := st.datad.set i ls.lined, bufs1 := ls.bufs1, bufs2 := ls.bufs2 }

/-- Translation of `ditherTo2bppLow` from grayquantlow.c. -/
def ditherTo2bppLow (w h : Nat) (st0 : Dither2State)
    (tabval : Nat → Nat) (tab38 tab14 : Nat → Int) : Dither2State :=
  let st1 := { st0 with bufs2 := st0.datas.getD 0 [] }
  let st := (List.range (h - 1)).foldl (dither2Row w tabval tab38 tab14) st1
  let bufs1 := st.bufs2
  let ls := ditherTo2bppLineLow (st.datad.getD (h - 1) []) w bufs1 st.bufs2
    tabval tab38 tab14 1
  { st with datad := st.datad.set (h - 1) ls.lined, bufs1 := ls.bufs1, bufs2 := ls.bufs2 }

/-! ### Word-level 1 bpp buffer model (pix3.c pixel counting)

`pixCountPixels`, `pixThresholdPixels` and the depth-1 special case of
`pixGetGrayHistogram` operate directly on the packed 32-bit words of the
image, masking the final partial word of each row.  We model the buffer by
its geometry and its flat list of words. -/

/-- A packed pixel buffer at the word level: width and height in pixels,
depth in bits per pixel, words per line, and the word data (row `y` starts at
word `y * wpl`). -/
structure PixB where
  w : Nat
  h : Nat
  d : Nat
  wpl : Nat
  data : List Nat
  deriving Repr, DecidableEq

/-- Word `j` of row `i`. -/
def wordAt (p : PixB) (i j : Nat) : Nat := p.data.getD (i * p.wpl + j) 0

/-- Translation of `makePixelSumTab8` from pix3.c: entry `i` is the sum of
the eight bits of the byte `i`. -/
def makePixelSumTab8 (i : Nat) : Nat :=
  let byte := i % 256
  (byte &&& 1) + ((byte >>> 1) &&& 1) + ((byte >>> 2) &&& 1) + ((byte >>> 3) &&& 1) +
    ((byte >>> 4) &&& 1) + ((byte >>> 5) &&& 1) + ((byte >>> 6) &&& 1) +
    ((byte >>> 7) &&& 1)

/-- The per-word summation of `pixCountPixels`: look up each of the four
bytes of the word in the sum table. -/
def wordByteSum (word : Nat) : Nat :=
  makePixelSumTab8 (word &&& 0xff) + makePixelSumTab8 ((word >>> 8) &&& 0xff) +
    makePixelSumTab8 ((word >>> 16) &&& 0xff) + makePixelSumTab8 ((word >>> 24) &&& 0xff)

/-- The end-of-row mask `0xffffffff << (32 - endbits)`, computed on 32-bit
words (the code only uses it when `endbits ≠ 0`). -/
def endmaskOf (endbits : Nat) : Nat := (0xffffffff <<< (32 - endbits)) % 2 ^ 32

/-- The count contributed by row `i` in `pixCountPixels`: all full words
plus, if the width is not word-aligned, the final word masked with
`endmaskOf`. -/
def pixCountRow (p : PixB) (i : Nat) : Nat :=
  let fullwords := p.w / 32
  let endbits := p.w % 32
  (∑ j ∈ Finset.range fullwords, wordByteSum (wordAt p i j)) +
    (if endbits ≠ 0 then wordByteSum (wordAt p i fullwords &&& endmaskOf endbits) else 0)

/-- Translation of `pixCountPixels` from pix3.c: errors unless the image is
1 bpp, otherwise sums the table lookups over every row. -/
def pixCountPixels (p : PixB) : Option Nat :=
  if p.d ≠ 1 then none
  else some (∑ i ∈ Finset.range p.h, pixCountRow p i)

/-- The bit of pixel `(x, y)` per the documented MSB-first packing invariant:
bit `31 - x % 32` of word `x / 32` of row `y`. -/
def getBit (p : PixB) (x y : Nat) : Nat :=
  (p.data.getD (y * p.wpl + x / 32) 0 >>> (31 - x % 32)) &&& 1

/-- The number of ON pixels lying within the image width. -/
def onPixelCount (p : PixB) : Nat :=
  ∑ y ∈ Finset.range p.h, ∑ x ∈ Finset.range p.w, getBit p x y

/-- The row loop of `pixThresholdPixels`: accumulate row counts and return
true as soon as the running sum exceeds the threshold. -/
def thresholdRows (p : PixB) (thresh : Int) : List Nat → Nat → Bool
  | [], _ => false
  | i :: rest, sum =>
    let sum := sum + pixCountRow p i
    if thresh < (sum : Int) then true else thresholdRows p thresh rest sum

/-- Translation of `pixThresholdPixels` from pix3.c: errors unless 1 bpp,
otherwise reports whether the ON-pixel count exceeds `thresh`, returning as
soon as the running sum does. -/
def pixThresholdPixels (p : PixB) (thresh : Int) : Option Bool :=
  if p.d ≠ 1 then none
  else some (thresholdRows p thresh (List.range p.h) 0)

/-- The row (or column) indices visited by a loop `for (i = 0; i < n; i += factor)`:
the multiples of `factor` below `n`. -/
def strideIdx (n factor : Nat) : List Nat :=
  (List.range n).filter (fun i => i % factor = 0)

/-- Modelled from the spec: the accessor for a pixel of depth
`d ∈ {2,4,8,16}` (`GET_DATA_DIBIT`/`QBIT`/`BYTE`/`TWO_BYTES`, not in the
sources here), per the MSB-first packing invariant. -/
def getPixelAt (p : PixB) (x y : Nat) : Nat :=
  (p.data.getD (y * p.wpl + x * p.d / 32) 0 >>>
    (32 - (x % (32 / p.d) + 1) * p.d)) &&& (2 ^ p.d - 1)

/-- Translation of `pixGetGrayHistogram` from pix3.c, for a buffer without a
colormap: errors for depth over 16 or sampling factor below 1; at depth 1 it
returns the closed-form two-entry histogram from `pixCountPixels` (the
sampling factor is not used); at depths 2, 4, 8, 16 it tallies the pixels at
the factor's row and column stride. -/
def pixGetGrayHistogram (p : PixB) (factor : Nat) : Option (List Nat) :=
  if 16 < p.d then none
  else if factor < 1 then none
  else if p.d = 1 then
    match pixCountPixels p with
    | some count => some [p.w * p.h - count, count]
    | none => none
  else if p.d = 2 ∨ p.d = 4 ∨ p.d = 8 ∨ p.d = 16 then
    some ((List.range (2 ^ p.d)).map (fun v =>
      ((strideIdx p.h factor).map (fun i =>
        ((strideIdx p.w factor).filter (fun j => getPixelAt p j i = v)).length)).sum))
  else none

/-! ### Pixel-matrix buffer model (boolean ops, rotation, bilinear, averaging)

For `pixSubtract`/`pixAnd`/`pixInvert`, `pixRotate90`, `pixBilinearSampled`
and `pixGetAverageMasked` the word packing is irrelevant: every access is a
whole-pixel get or set.  We model a buffer as a matrix of pixel values
together with its geometry and optional colormap. -/

/-- A pixel buffer as a matrix of pixel values: `px` has `h` rows of `w`
entries, each entry below `2 ^ d`. -/
structure PixG where
  w : Nat
  h : Nat
  d : Nat
  cmap : Option (List (Nat × Nat × Nat)) := none
  px : List (List Nat)
  deriving Repr, DecidableEq

/-- Pixel value at column `x`, row `y`. -/
def getPx (p : PixG) (x y : Nat) : Nat := (p.px.getD y []).getD x 0

/-- Well-formedness of a pixel matrix: the row count, the row lengths and the
value bound match the geometry. -/
def WfPix (p : PixG) : Prop :=
  p.px.length = p.h ∧ (∀ row ∈ p.px, row.length = p.w) ∧
    ∀ row ∈ p.px, ∀ v ∈ row, v < 2 ^ p.d

instance (p : PixG) : Decidable (WfPix p) := by
  unfold WfPix; infer_instance

/-- Complement of a pixel value within its depth (the effect of the rasterop
`PIX_NOT` on a single pixel of depth `d`). -/
def pxNot (d v : Nat) : Nat := (2 ^ d - 1) ^^^ v

/-- Modelled from the spec: `pixRasterop(dst, 0, 0, dst.w, dst.h, op, src, 0, 0)`
(rasterop itself is not in the sources here) combines each destination pixel
with the corresponding source pixel over the intersection of the two extents
aligned at the upper-left corner, leaving destination pixels outside the
intersection unchanged. -/
def rasteropOp (dst src : PixG) (op : Nat → Nat → Nat) : PixG :=
  { dst with px := (List.range dst.h).map (fun y => (List.range dst.w).map (fun x =>
      if x < src.w ∧ y < src.h then op (getPx dst x y) (getPx src x y)
      else getPx dst x y)) }

/-- Modelled from the spec: `pixRasterop` with op `PIX_NOT(PIX_DST)` and no
source: complement every destination pixel. -/
def rasteropNot (dst : PixG) : PixG :=
  { dst with px := (List.range dst.h).map (fun y => (List.range dst.w).map (fun x =>
      pxNot dst.d (getPx dst x y))) }

/-- The destination argument of the boolean image ops: absent (fresh result),
aliased to the first source, aliased to the second source, or a distinct
pre-existing buffer. -/
inductive DstArg where
  | fresh
  | eqS1
  | eqS2
  | other (p : PixG)
  deriving Repr, DecidableEq

/-- Translation of `pixInvert` from pix3.c: prepare the destination as a copy
of the source (`pixCopy` resizes any distinct destination), then complement
it in place. -/
def pixInvert (_pd : DstArg) (s : PixG) : PixG := rasteropNot s

/-- Translation of `pixAnd` from pix3.c: prepare the destination as a copy of
`s1`, then rasterop with `PIX_SRC & PIX_DST` from `s2`. -/
def pixAnd (_pd : DstArg) (s1 s2 : PixG) : PixG :=
  rasteropOp s1 s2 (fun dv sv => dv &&& sv)

/-- Translation of `pixSubtract` from pix3.c, covering its four destination
cases.  When the destination is `s2`, the rasterop runs with the reversed op
`PIX_NOT(PIX_DST) & PIX_SRC` from `s1`; in every other case the destination
becomes a copy of `s1` and the rasterop runs with `PIX_DST & PIX_NOT(PIX_SRC)`
from `s2`. -/
def pixSubtract (pd : DstArg) (s1 s2 : PixG) : PixG :=
  match pd with
  | .eqS2 => rasteropOp s2 s1 (fun dv sv => pxNot s2.d dv &&& sv)
  | _ => rasteropOp s1 s2 (fun dv sv => dv &&& pxNot s1.d sv)

/-! ### Orthogonal rotation (rotateorth.c) -/

/-- Modelled from the spec: `rotate90Low` (not in the sources here) assembles
each destination row from a source column; clockwise (`direction = 1`) the
source column index equals the destination row index and is read bottom to
top, counter-clockwise (`direction = -1`) the source column index decreases
as the destination row index increases. -/
def rotate90Low (p : PixG) (wd hd : Nat) (direction : Int) : List (List Nat) :=
  (List.range hd).map (fun i => (List.range wd).map (fun j =>
    if direction = 1 then getPx p i (p.h - 1 - j)
    else getPx p (p.w - 1 - i) j))

/-- Translation of `pixRotate90` from rotateorth.c: errors unless the depth
is in {1,2,4,8,16,32} and the direction is 1 or -1; creates a destination
with swapped dimensions, copies the colormap, and fills it via
`rotate90Low`. -/
def pixRotate90 (p : PixG) (direction : Int) : Option PixG :=
  if ¬(p.d = 1 ∨ p.d = 2 ∨ p.d = 4 ∨ p.d = 8 ∨ p.d = 16 ∨ p.d = 32) then none
  else if direction ≠ 1 ∧ direction ≠ -1 then none
  else
    let hd := p.w
    let wd := p.h
    some { w := wd, h := hd, d := p.d, cmap := p.cmap,
           px := rotate90Low p wd hd direction }

/-! ### Bilinear transform (bilinear.c)

The coefficient solve builds an 8x8 linear system from 4 correspondence point
pairs (the system assembly is translated from `getBilinearXformCoeffs`; the
`gaussjordan` solver lives outside the sources here and is modelled from the
spec as Gauss-Jordan elimination).  C `l_float32` arithmetic is modelled
exactly over `ℚ`. -/

/-- An 8-vector of rationals. -/
abbrev Vec8 := Fin 8 → ℚ

/-- An 8x8 matrix of rationals. -/
abbrev Mat8 := Fin 8 → Fin 8 → ℚ

/-- Find a pivot row for column `k`: the first row at or below `k` with a
nonzero entry in column `k`. -/
def findPivot (A : Mat8) (k : Fin 8) : Option (Fin 8) :=
  (List.finRange 8).find? (fun r => decide (k ≤ r) && decide (A r k ≠ 0))

/-- Index transposition used to swap two rows. -/
def swapIdx (r s i : Fin 8) : Fin 8 := if i = r then s else if i = s then r else i

/-- Modelled from the spec: one column step of Gauss-Jordan elimination on
the augmented system: locate a pivot in column `k` (failing if none exists),
swap it into row `k`, scale row `k` by the pivot, and eliminate column `k`
from every other row. -/
def elimStep (st : Mat8 × Vec8) (k : Fin 8) : Option (Mat8 × Vec8) :=
  match findPivot st.1 k with
  | none => none
  | some r =>
    let A : Mat8 := fun i j => st.1 (swapIdx r k i) j
    let B : Vec8 := fun i => st.2 (swapIdx r k i)
    let p := A k k
    some (fun i j => if i = k then A k j / p else A i j - A i k * (A k j / p),
          fun i => if i = k then B k / p else B i - A i k * (B k / p))

/-- Modelled from the spec: `gaussjordan` solves the 8x8 system `A C = B` by
Gauss-Jordan elimination, one column at a time, returning the solution in
place of `B` (or failing on a singular system). -/
def gaussjordan (A : Mat8) (B : Vec8) : Option Vec8 :=
  (elimStep (A, B) 0).bind fun s1 =>
  (elimStep s1 1).bind fun s2 =>
  (elimStep s2 2).bind fun s3 =>
  (elimStep s3 3).bind fun s4 =>
  (elimStep s4 4).bind fun s5 =>
  (elimStep s5 5).bind fun s6 =>
  (elimStep s6 6).bind fun s7 =>
  (elimStep s7 7).map fun s8 => s8.2

/-- The 8x8 matrix assembled by `getBilinearXformCoeffs` from the four source
points: each point contributes one row with the bilinear basis
`[x, y, x*y, 1]` in columns 0-3 and one row with the same basis in columns
4-7. -/
def buildA (ptas : List (ℚ × ℚ)) : Mat8 :=
  let q1 := ptas.getD 0 (0, 0)
  let q2 := ptas.getD 1 (0, 0)
  let q3 := ptas.getD 2 (0, 0)
  let q4 := ptas.getD 3 (0, 0)
  fun i j =>
    ([[q1.1, q1.2, q1.1 * q1.2, 1, 0, 0, 0, 0],
      [0, 0, 0, 0, q1.1, q1.2, q1.1 * q1.2, 1],
      [q2.1, q2.2, q2.1 * q2.2, 1, 0, 0, 0, 0],
      [0, 0, 0, 0, q2.1, q2.2, q2.1 * q2.2, 1],
      [q3.1, q3.2, q3.1 * q3.2, 1, 0, 0, 0, 0],
      [0, 0, 0, 0, q3.1, q3.2, q3.1 * q3.2, 1],
      [q4.1, q4.2, q4.1 * q4.2, 1, 0, 0, 0, 0],
      [0, 0, 0, 0, q4.1, q4.2, q4.1 * q4.2, 1]].getD i []).getD j 0

/-- The right-hand side assembled by `getBilinearXformCoeffs` from the four
transformed points: `[x1', y1', x2', y2', x3', y3', x4', y4']`. -/
def buildB (ptad : List (ℚ × ℚ)) : Vec8 :=
  let q1 := ptad.getD 0 (0, 0)
  let q2 := ptad.getD 1 (0, 0)
  let q3 := ptad.getD 2 (0, 0)
  let q4 := ptad.getD 3 (0, 0)
  fun i => [q1.1, q1.2, q2.1, q2.2, q3.1, q3.2, q4.1, q4.2].getD i 0

/-- Translation of `getBilinearXformCoeffs` from bilinear.c: assemble the
system and solve it, returning the 8 coefficients. -/
def getBilinearXformCoeffs (ptas ptad : List (ℚ × ℚ)) : Option (List ℚ) :=
  (gaussjordan (buildA ptas) (buildB ptad)).map (fun c => (List.finRange 8).map c)

/-- The identity coefficient vector `x' = x, y' = y`. -/
def identCoeffs : List ℚ := [1, 0, 0, 0, 0, 1, 0, 0]

/-- The C cast `(l_int32)q`: truncation toward zero. -/
def ctrunc (q : ℚ) : Int := if q < 0 then -(⌊-q⌋) else ⌊q⌋

/-- Translation of `bilinearXformSampledPt` from bilinear.c: the nearest
pixel coordinates of the transformed point,
`(l_int32)(c0*x + c1*y + c2*x*y + c3 + 0.5)` and likewise for `y`. -/
def bilinearXformSampledPt (vc : List ℚ) (x y : Nat) : Int × Int :=
  (ctrunc (vc.getD 0 0 * x + vc.getD 1 0 * y + vc.getD 2 0 * (x * y) + vc.getD 3 0 + 1 / 2),
   ctrunc (vc.getD 4 0 * x + vc.getD 5 0 * y + vc.getD 6 0 * (x * y) + vc.getD 7 0 + 1 / 2))

/-- The incolor choice for pixels brought in from outside the source. -/
inductive Incolor where
  | white
  | black
  deriving Repr, DecidableEq

/-- The initial (background) pixel value of the destination in
`pixBilinearSampled`: for a colormapped source, the index of the black or
white entry appended to the colormap (`pixcmapAddBlackOrWhite` is not in the
sources here and is modelled from the spec as appending a synthesized
entry); otherwise all-clear or all-set per the depth/incolor rule of the
source. -/
def sampledInit (p : PixG) (incolor : Incolor) : Nat :=
  match p.cmap with
  | some cm => cm.length
  | none =>
    if (p.d = 1 ∧ incolor = .white) ∨ (1 < p.d ∧ incolor = .black) then 0
    else 2 ^ p.d - 1

/-- Translation of `pixBilinearSampled` from bilinear.c: errors unless the
depth is in {1,2,4,8,32}; initializes every destination pixel to the
background value, then for each destination pixel computes the transformed
source point and, when it lies inside the source, copies the source pixel --
except at depth 1, where the code only sets the destination bit when the
source bit is ON (it never clears an initialized bit). -/
def pixBilinearSampled (p : PixG) (vc : List ℚ) (incolor : Incolor) : Option PixG :=
  if p.d = 1 ∨ p.d = 2 ∨ p.d = 4 ∨ p.d = 8 ∨ p.d = 32 then
    let bg := sampledInit p incolor
    some { p with px := (List.range p.h).map (fun i => (List.range p.w).map (fun j =>
      let xy := bilinearXformSampledPt vc j i
      if xy.1 < 0 ∨ xy.2 < 0 ∨ (p.w : Int) ≤ xy.1 ∨ (p.h : Int) ≤ xy.2 then bg
      else
        let sv := getPx p xy.1.toNat xy.2.toNat
        if p.d = 1 then (if sv ≠ 0 then 1 else bg) else sv)) }
  else none

/-! ### Masked averaging (pix3.c `pixGetAverageMasked`) -/

/-- The statistic selector of `pixGetAverageMasked`. -/
inductive StatType where
  | meanAbsval
  | rootMeanSquare
  | standardDeviation
  | variance
  deriving Repr, DecidableEq

/-- Modelled from the spec: the gray value of a colormap entry.  The
colormap maps each pixel value to an RGB triple, and a colormap-aware
operation may "first expand to the gray/RGB representation"; the expansion
itself (`pixRemoveColormap` with `REMOVE_CMAP_TO_GRAYSCALE`, from a source
file not present here) is modelled with the gray value of an entry taken as
the mean of its three components. -/
def cmapGrayVal (cm : List (Nat × Nat × Nat)) (v : Nat) : Nat :=
  ((cm.getD v (0, 0, 0)).1 + (cm.getD v (0, 0, 0)).2.1 + (cm.getD v (0, 0, 0)).2.2) / 3

/-- Modelled from the spec: a colormapped buffer expanded to an 8 bpp gray
buffer of the same dimensions by mapping every pixel through its colormap
entry; a buffer with no colormap is returned as is (the `pixClone` branch of
`pixGetAverageMasked`). -/
def removeColormapToGray (p : PixG) : PixG :=
  match p.cmap with
  | none => p
  | some cm =>
    { w := p.w, h := p.h, d := 8, cmap := none,
      px := p.px.map (fun row => row.map (cmapGrayVal cm)) }

/-- The pixel values sampled by the scan loops of `pixGetAverageMasked`:
without a mask, every pixel of the source at the factor's row and column
stride; with a mask, the source pixels under ON mask pixels at the stride,
with mask positions falling outside the source skipped. -/
def sampledVals (p : PixG) (pm : Option PixG) (x y : Int) (factor : Nat) : List Nat :=
  match pm with
  | none =>
    (strideIdx p.h factor).flatMap (fun i =>
      (strideIdx p.w factor).map (fun j => getPx p j i))
  | some m =>
    (strideIdx m.h factor).flatMap (fun (i : Nat) =>
      if y + (i : Int) < 0 ∨ (p.h : Int) ≤ y + (i : Int) then []
      else
        (strideIdx m.w factor).filterMap (fun (j : Nat) =>
          if x + (j : Int) < 0 ∨ (p.w : Int) ≤ x + (j : Int) then none
          else if getPx m j i ≠ 0 then
            some (getPx p (x + (j : Int)).toNat (y + (i : Int)).toNat)
          else none))

/-- The numeric results of a successful `pixGetAverageMasked` scan: the
sample count, the mean, the mean square and the variance (all exact). -/
structure AvgResult where
  count : Nat
  ave : ℚ
  meansq : ℚ
  var : ℚ
  deriving Repr, DecidableEq

/-- Translation of `pixGetAverageMasked` from pix3.c: errors when the source
is neither 8 bpp nor colormapped, when the mask is not 1 bpp, or when the
sampling factor is below 1; a colormapped source is first expanded to gray
(`pixRemoveColormap`), a non-colormapped 8 bpp source is used as is
(`pixClone`); accumulates the sum and sum of squares of the sampled pixels
of the gray buffer, errors when no pixels were sampled, and otherwise
returns the mean, mean square, and variance `meansq - ave^2`. -/
def pixGetAverageMasked (p : PixG) (pm : Option PixG) (x y : Int)
    (factor : Nat) : Option AvgResult :=
  if p.d ≠ 8 ∧ p.cmap = none then none
  else if (pm.map PixG.d).getD 1 ≠ 1 then none
  else if factor < 1 then none
  else
    let vals := sampledVals (removeColormapToGray p) pm x y factor
    let count := vals.length
    if count = 0 then none
    else
      let sumave : ℚ := (vals.map (fun (v : Nat) => (v : ℚ))).sum
      let summs : ℚ := (vals.map (fun (v : Nat) => (v : ℚ) * v)).sum
      let ave := sumave / count
      let meansq := summs / count
      some { count := count, ave := ave, meansq := meansq, var := meansq - ave * ave }

/-- The value stored into `*pval` by `pixGetAverageMasked` for each statistic
type: the mean, `sqrt(meansq)`, `sqrt(var)`, or the variance. -/
noncomputable def avgStatValue (type : StatType) (r : AvgResult) : ℝ :=
  match type with
  | .meanAbsval => (r.ave : ℝ)
  | .rootMeanSquare => Real.sqrt (r.meansq : ℝ)
  | .standardDeviation => Real.sqrt (r.var : ℝ)
  | .variance => (r.var : ℝ)

/-! ### Specification-side restatements

These definitions restate, in the specification's own vocabulary, the
behavior that the claims attribute to the code; the theorems below compare
them with the translations above.  Subtraction on `ℕ` is truncated, so
`a - b` is the clamp of `a - b` at 0, and `min 255` is the clamp at 255. -/

/-- The claimed per-pixel rule of Floyd-Steinberg dithering at a column other
than the last of a non-final row: a value of at most 127 binarizes ON and,
when above `lowerclip`, adds `⌊3v/8⌋` to the right and below neighbors and
`⌊v/4⌋` to the diagonal neighbor, clamped to 255; a value above 127 leaves
the output OFF and, when `excess = 255 - v` is above `upperclip`, subtracts
the same amounts of `excess`, clamped to 0. -/
def ditherClaimPixel (lowerclip upperclip : Int) (st : LineState) (j : Nat) :
    LineState :=
  let v := getByte st.bufs1 j
  if v ≤ 127 then
    { lined := st.lined.set j true,
      bufs1 := if lowerclip < (v : Int) then
          setByte st.bufs1 (j + 1) (min 255 (getByte st.bufs1 (j + 1) + 3 * v / 8))
        else st.bufs1,
      bufs2 := if lowerclip < (v : Int) then
          setByte (setByte st.bufs2 j (min 255 (getByte st.bufs2 j + 3 * v / 8)))
            (j + 1) (min 255 (getByte st.bufs2 (j + 1) + v / 4))
        else st.bufs2 }
  else
    let excess := 255 - v
    { lined := st.lined,
      bufs1 := if upperclip < (excess : Int) then
          setByte st.bufs1 (j + 1) (getByte st.bufs1 (j + 1) - 3 * excess / 8)
        else st.bufs1,
      bufs2 := if upperclip < (excess : Int) then
          setByte (setByte st.bufs2 j (getByte st.bufs2 j - 3 * excess / 8))
            (j + 1) (getByte st.bufs2 (j + 1) - excess / 4)
        else st.bufs2 }

/-- The claimed rule at the last column of a non-final row: only the below
neighbor exists, and it receives the `⌊3/8⌋` amount. -/
def ditherClaimLastCol (lowerclip upperclip : Int) (st : LineState) (j : Nat) :
    LineState :=
  let v := getByte st.bufs1 j
  if v ≤ 127 then
    { st with lined := st.lined.set j true,
              bufs2 := if lowerclip < (v : Int) then
                  setByte st.bufs2 j (min 255 (getByte st.bufs2 j + 3 * v / 8))
                else st.bufs2 }
  else
    let excess := 255 - v
    { st with bufs2 := if upperclip < (excess : Int) then
        setByte st.bufs2 j (getByte st.bufs2 j - 3 * excess / 8)
      else st.bufs2 }

/-- The claimed rule at a non-last column of the final row: only the right
neighbor exists. -/
def ditherClaimPixelLast (lowerclip upperclip : Int) (st : LineState) (j : Nat) :
    LineState :=
  let v := getByte st.bufs1 j
  if v ≤ 127 then
    { st with lined := st.lined.set j true,
              bufs1 := if lowerclip < (v : Int) then
                  setByte st.bufs1 (j + 1) (min 255 (getByte st.bufs1 (j + 1) + 3 * v / 8))
                else st.bufs1 }
  else
    let excess := 255 - v
    { st with bufs1 := if upperclip < (excess : Int) then
        setByte st.bufs1 (j + 1) (getByte st.bufs1 (j + 1) - 3 * excess / 8)
      else st.bufs1 }

/-- The claimed rule at the very last pixel: binarize only, no neighbors. -/
def ditherClaimLastPixel (st : LineState) (j : Nat) : LineState :=
  if getByte st.bufs1 j ≤ 127 then { st with lined := st.lined.set j true } else st

/-- The claimed behavior of a whole line: fold the per-pixel rule over the
columns before the last, then apply the last-column rule (`lastline = false`
for a non-final row, `true` for the final row). -/
def ditherClaimLine (lined : List Bool) (w : Nat) (bufs1 bufs2 : List Nat)
    (lowerclip upperclip : Int) (lastline : Bool) : LineState :=
  if lastline then
    ditherClaimLastPixel
      ((List.range (w - 1)).foldl (ditherClaimPixelLast lowerclip upperclip)
        ⟨lined, bufs1, bufs2⟩) (w - 1)
  else
    ditherClaimLastCol lowerclip upperclip
      ((List.range (w - 1)).foldl (ditherClaimPixel lowerclip upperclip)
        ⟨lined, bufs1, bufs2⟩) (w - 1)

/-- The claim's description of the set of sampled pixels of
`pixGetAverageMasked`, as an indicator double sum over the index space: with
no mask, all pixels of the source at the sampling factor's stride; with a
mask, the source pixels under ON mask pixels at the stride, clipped to the
source image.  `g` maps each sampled value into the summed monoid, so
`g = fun _ => 1` counts the sampled pixels and `g = id`/`g = sq` give the
sum and sum of squares. -/
def specSampleSum {M : Type} [AddCommMonoid M] (p : PixG) (pm : Option PixG)
    (x y : Int) (factor : Nat) (g : Nat → M) : M :=
  match pm with
  | none =>
    ∑ i ∈ Finset.range p.h, ∑ j ∈ Finset.range p.w,
      if i % factor = 0 ∧ j % factor = 0 then g (getPx p j i) else 0
  | some m =>
    ∑ i ∈ Finset.range m.h, ∑ j ∈ Finset.range m.w,
      if i % factor = 0 ∧ j % factor = 0 ∧
          0 ≤ y + (i : Int) ∧ y + (i : Int) < p.h ∧
          0 ≤ x + (j : Int) ∧ x + (j : Int) < p.w ∧ getPx m j i ≠ 0 then
        g (getPx p (x + (j : Int)).toNat (y + (i : Int)).toNat)
      else 0

/-- The claimed result of subtraction on equal-size, equal-depth buffers:
pixel `(x,y)` is `src1(x,y) AND NOT(src2(x,y))`, bit for bit. -/
def subtractClaim (s1 s2 : PixG) : List (List Nat) :=
  (List.range s1.h).map (fun y => (List.range s1.w).map (fun x =>
    getPx s1 x y &&& pxNot s1.d (getPx s2 x y)))

/-! ## Theorems -/

/-! ### Generic helpers -/

theorem getByte_setByte_ne (buf : List Nat) {j k : Nat} (v : Nat) (h : j ≠ k) :
    getByte (setByte buf j v) k = getByte buf k := by
  simp [getByte, setByte, List.getD, List.getElem?_set_ne h]

theorem clampSub_eq (a b : Nat) : clampSub a b = a - b := by
  unfold clampSub; omega

theorem clampAdd_eq (a b : Nat) : clampAdd a b = min 255 (a + b) := rfl

theorem foldl_proj {α β γ : Type} (f : α → β → α) (proj : α → γ)
    (h : ∀ a b, proj (f a b) = proj a) :
    ∀ (l : List β) (a : α), proj (l.foldl f a) = proj a := by
  intro l
  induction l with
  | nil => intro a; rfl
  | cons b t ih => intro a; rw [List.foldl_cons, ih, h]

/-! ### C1: the Floyd-Steinberg per-pixel rule -/

theorem ditherPixel_eq_claim (lcl ucl : Int) (st : LineState) (j : Nat) :
    ditherToBinaryPixel lcl ucl st j = ditherClaimPixel lcl ucl st j := by
  unfold ditherToBinaryPixel ditherClaimPixel
  have hne : j ≠ j + 1 := by omega
  by_cases h : 127 < getByte st.bufs1 j
  · have h' : ¬(getByte st.bufs1 j ≤ 127) := by omega
    simp only [if_pos h, if_neg h']
    by_cases h2 : ucl < ((255 - getByte st.bufs1 j : Nat) : Int)
    · simp only [if_pos h2, getByte_setByte_ne _ _ hne, clampSub_eq]
    · simp only [if_neg h2]
  · have h' : getByte st.bufs1 j ≤ 127 := by omega
    simp only [if_neg h, if_pos h']
    by_cases h2 : lcl < ((getByte st.bufs1 j : Nat) : Int)
    · simp only [if_pos h2, getByte_setByte_ne _ _ hne, clampAdd_eq]
    · simp only [if_neg h2]

theorem ditherLastCol_eq_claim (lcl ucl : Int) (st : LineState) (j : Nat) :
    ditherToBinaryLastCol lcl ucl st j = ditherClaimLastCol lcl ucl st j := by
  unfold ditherToBinaryLastCol ditherClaimLastCol
  by_cases h : 127 < getByte st.bufs1 j
  · have h' : ¬(getByte st.bufs1 j ≤ 127) := by omega
    simp only [if_pos h, if_neg h']
    by_cases h2 : ucl < ((255 - getByte st.bufs1 j : Nat) : Int)
    · simp only [if_pos h2, clampSub_eq]
    · simp only [if_neg h2]
  · have h' : getByte st.bufs1 j ≤ 127 := by omega
    simp only [if_neg h, if_pos h']
    by_cases h2 : lcl < ((getByte st.bufs1 j : Nat) : Int)
    · simp only [if_pos h2, clampAdd_eq]
    · simp only [if_neg h2]

theorem ditherPixelLast_eq_claim (lcl ucl : Int) (st : LineState) (j : Nat) :
    ditherToBinaryPixelLast lcl ucl st j = ditherClaimPixelLast lcl ucl st j := by
  unfold ditherToBinaryPixelLast ditherClaimPixelLast
  by_cases h : 127 < getByte st.bufs1 j
  · have h' : ¬(getByte st.bufs1 j ≤ 127) := by omega
    simp only [if_pos h, if_neg h']
    by_cases h2 : ucl < ((255 - getByte st.bufs1 j : Nat) : Int)
    · simp only [if_pos h2, clampSub_eq]
    · simp only [if_neg h2]
  · have h' : getByte st.bufs1 j ≤ 127 := by omega
    simp only [if_neg h, if_pos h']
    by_cases h2 : lcl < ((getByte st.bufs1 j : Nat) : Int)
    · simp only [if_pos h2, clampAdd_eq]
    · simp only [if_neg h2]

theorem ditherLastPixel_eq_claim (st : LineState) (j : Nat) :
    ditherToBinaryLastPixel st j = ditherClaimLastPixel st j := by
  unfold ditherToBinaryLastPixel ditherClaimLastPixel
  by_cases h : getByte st.bufs1 j < 128
  · simp only [if_pos h, if_pos (show getByte st.bufs1 j ≤ 127 by omega)]
  · simp only [if_neg h, if_neg (show ¬(getByte st.bufs1 j ≤ 127) by omega)]

/-- C1: In Floyd-Steinberg dithering of an 8 bpp image to 1 bpp, every line
behaves as the claim describes: at every column `j` other than the last of a
non-final row, a value above 127 leaves the output bit OFF and, when
`excess = 255 - value` exceeds `upperclip`, subtracts `⌊3·excess/8⌋` from the
right and below neighbors and `⌊excess/4⌋` from the diagonal neighbor,
clamped to `[0,255]`; a value of at most 127 sets the output bit ON and, when
the value exceeds `lowerclip`, adds the analogous amounts, clamped to
`[0,255]`.  The last column of a non-final row propagates only to the below
neighbor, a non-last column of the final row only to the right neighbor, and
the final pixel not at all. -/
theorem dither_line_matches_claim (lined : List Bool) (w : Nat)
    (bufs1 bufs2 : List Nat) (lowerclip upperclip : Int) :
    ditherToBinaryLineLow lined w bufs1 bufs2 lowerclip upperclip 0 =
      ditherClaimLine lined w bufs1 bufs2 lowerclip upperclip false ∧
    ditherToBinaryLineLow lined w bufs1 bufs2 lowerclip upperclip 1 =
      ditherClaimLine lined w bufs1 bufs2 lowerclip upperclip true := by
  have e1 : ditherToBinaryPixel lowerclip upperclip =
      ditherClaimPixel lowerclip upperclip :=
    funext fun st => funext fun j => ditherPixel_eq_claim lowerclip upperclip st j
  have e2 : ditherToBinaryPixelLast lowerclip upperclip =
      ditherClaimPixelLast lowerclip upperclip :=
    funext fun st => funext fun j => ditherPixelLast_eq_claim lowerclip upperclip st j
  constructor
  · unfold ditherToBinaryLineLow ditherClaimLine
    rw [if_pos rfl, if_neg Bool.false_ne_true, e1,
      ditherLastCol_eq_claim]
  · unfold ditherToBinaryLineLow ditherClaimLine
    rw [if_neg one_ne_zero, if_pos rfl, e2, ditherLastPixel_eq_claim]

/-! ### C8: the dithering passes never write to the source -/

theorem ditherToBinaryRow_datas (w : Nat) (lcl ucl : Int) (st : DitherState) (i : Nat) :
    (ditherToBinaryRow w lcl ucl st i).datas = st.datas := rfl

theorem ditherLUTRow_datas (w : Nat) (tabval : Nat → Nat) (tab38 tab14 : Nat → Int)
    (st : DitherState) (i : Nat) :
    (ditherLUTRow w tabval tab38 tab14 st i).datas = st.datas := rfl

theorem dither2Row_datas (w : Nat) (tabval : Nat → Nat) (tab38 tab14 : Nat → Int)
    (st : Dither2State) (i : Nat) :
    (dither2Row w tabval tab38 tab14 st i).datas = st.datas := rfl

/-- C8: A complete dithering pass -- direct Floyd-Steinberg, the LUT variant,
or the 2 bpp variant -- leaves the source image data unchanged: all error is
propagated only into the scratch row buffers and all output goes only to the
destination rows. -/
theorem dither_preserves_source (w h : Nat) (st : DitherState) (st2 : Dither2State)
    (lowerclip upperclip : Int) (tabval : Nat → Nat) (tab38 tab14 : Nat → Int) :
    (ditherToBinaryLow w h st lowerclip upperclip).datas = st.datas ∧
    (ditherToBinaryLUTLow w h st tabval tab38 tab14).datas = st.datas ∧
    (ditherTo2bppLow w h st2 tabval tab38 tab14).datas = st2.datas := by
  refine ⟨?_, ?_, ?_⟩
  · simp only [ditherToBinaryLow]
    rw [foldl_proj _ DitherState.datas (ditherToBinaryRow_datas w lowerclip upperclip)]
  · simp only [ditherToBinaryLUTLow]
    rw [foldl_proj _ DitherState.datas (ditherLUTRow_datas w tabval tab38 tab14)]
  · simp only [ditherTo2bppLow]
    rw [foldl_proj _ Dither2State.datas (dither2Row_datas w tabval tab38 tab14)]

/-! ### C2: the LUT dithering pass versus the direct pass

The direct pass propagates the floored amounts `⌊3e/8⌋` and `⌊e/4⌋`, while
`make8To1DitherTables` stores the rounded amounts `(3e+4)/8` and `(e+2)/4`;
the two passes therefore agree on the binarization rule but not bit for bit
on outputs. -/

/-- C2 (counterexample): on the one-row image `[2, 127]` with clips `(0,0)`,
the direct Floyd-Steinberg pass outputs `[ON, ON]` but the LUT pass outputs
`[ON, OFF]`: the LUT propagates `(3·2+4)/8 = 1` to the right neighbor,
pushing it from 127 to 128, while the direct pass propagates `⌊3·2/8⌋ = 0`.
So the two passes are not bit-identical for every input and clip pair. -/
theorem lut_dither_differs_from_direct :
    (ditherToBinaryLow 2 1 ⟨[[2, 127]], [[false, false]], [], []⟩ 0 0).datad =
      [[true, true]] ∧
    (ditherToBinaryLUTLow 2 1 ⟨[[2, 127]], [[false, false]], [], []⟩
        (make8To1DitherTables 0 0).1 (make8To1DitherTables 0 0).2.1
        (make8To1DitherTables 0 0).2.2).datad = [[true, false]] := by
  constructor <;> rfl

/-- C2 (amended): for clip parameters with `0 ≤ lowerclip ≤ 127`, the LUT
output table agrees with the direct pass's binarization rule at every gray
value: the output bit is ON exactly when the value is at most 127. -/
theorem lut_tabval_matches_binarize_rule (lowerclip upperclip : Int)
    (h0 : 0 ≤ lowerclip) (h127 : lowerclip ≤ 127) (v : Nat) (hv : v < 256) :
    (make8To1DitherTables lowerclip upperclip).1 v ≠ 0 ↔ v ≤ 127 := by
  unfold make8To1DitherTables make8To1Entry
  by_cases h1 : (v : Int) ≤ lowerclip
  · simp only [if_pos h1]
    constructor
    · intro _; omega
    · intro _; exact one_ne_zero
  · simp only [if_neg h1]
    by_cases h2 : v < 128
    · simp only [if_pos h2]
      constructor
      · intro _; omega
      · intro _; exact one_ne_zero
    · simp only [if_neg h2]
      by_cases h3 : (v : Int) < 255 - upperclip
      · simp only [if_pos h3]
        constructor
        · intro hne; exact absurd rfl hne
        · intro hle; omega
      · simp only [if_neg h3]
        constructor
        · intro hne; exact absurd rfl hne
        · intro hle; omega

/-- C2 (witness): the amended rule at `lowerclip = 7`, `upperclip = 7`,
`v = 100`. -/
theorem lut_tabval_matches_binarize_rule_witness :
    ((make8To1DitherTables 7 7).1 100 ≠ 0 ↔ (100 : Nat) ≤ 127) :=
  lut_tabval_matches_binarize_rule 7 7 (by decide) (by decide) 100 (by decide)

/-! ### C3: pixCountPixels counts exactly the in-width ON pixels -/

theorem shift_and_one (m k : Nat) : (m >>> k) &&& 1 = (m.testBit k).toNat := by
  rw [Nat.and_one_is_mod, Nat.shiftRight_eq_div_pow, Nat.testBit_to_div_mod]
  rcases Nat.mod_two_eq_zero_or_one (m / 2 ^ k) with h | h <;> simp [h]

theorem and_one_testBit (n : Nat) : n &&& 1 = (n.testBit 0).toNat := by
  have h := shift_and_one n 0
  rwa [Nat.shiftRight_zero] at h

theorem sumTab8_eq (m : Nat) :
    makePixelSumTab8 m = ∑ k ∈ Finset.range 8, ((m % 256).testBit k).toNat := by
  unfold makePixelSumTab8
  simp only [Finset.sum_range_succ, Finset.sum_range_zero, and_one_testBit,
    Nat.testBit_shiftRight, Nat.add_zero]
  omega

theorem byteSum_shift (word s : Nat) :
    makePixelSumTab8 ((word >>> s) &&& 0xff) =
      ∑ k ∈ Finset.range 8, (word.testBit (s + k)).toNat := by
  have hlt : (word >>> s) &&& 0xff < 256 :=
    Nat.lt_succ_of_le (Nat.and_le_right)
  rw [sumTab8_eq, Nat.mod_eq_of_lt hlt]
  refine Finset.sum_congr rfl fun k hk => ?_
  have hk8 : k < 8 := Finset.mem_range.mp hk
  rw [Nat.testBit_and, Nat.testBit_shiftRight,
    show (0xff : Nat) = 2 ^ 8 - 1 by norm_num, Nat.testBit_two_pow_sub_one]
  simp [hk8]

theorem wordByteSum_eq (word : Nat) :
    wordByteSum word = ∑ b ∈ Finset.range 32, (word.testBit b).toNat := by
  have split : ∀ (a b : Nat) (f : Nat → Nat), a ≤ b →
      ∑ x ∈ Finset.range b, f x =
        (∑ x ∈ Finset.range a, f x) + ∑ r ∈ Finset.range (b - a), f (a + r) := by
    intro a b f h
    calc ∑ x ∈ Finset.range b, f x = ∑ x ∈ Finset.Ico 0 b, f x := by
          rw [Finset.range_eq_Ico]
      _ = (∑ x ∈ Finset.Ico 0 a, f x) + ∑ x ∈ Finset.Ico a b, f x :=
          (Finset.sum_Ico_consecutive f (Nat.zero_le a) h).symm
      _ = (∑ x ∈ Finset.range a, f x) + ∑ r ∈ Finset.range (b - a), f (a + r) := by
          rw [← Finset.range_eq_Ico, Finset.sum_Ico_eq_sum_range]
  rw [split 24 32 _ (by omega), split 16 24 _ (by omega), split 8 16 _ (by omega)]
  unfold wordByteSum
  rw [show word &&& 0xff = (word >>> 0) &&& 0xff by rw [Nat.shiftRight_zero]]
  simp only [byteSum_shift]
  norm_num

theorem sum_range_split (a b : Nat) (f : Nat → Nat) (h : a ≤ b) :
    ∑ x ∈ Finset.range b, f x =
      (∑ x ∈ Finset.range a, f x) + ∑ r ∈ Finset.range (b - a), f (a + r) := by
  calc ∑ x ∈ Finset.range b, f x = ∑ x ∈ Finset.Ico 0 b, f x := by
        rw [Finset.range_eq_Ico]
    _ = (∑ x ∈ Finset.Ico 0 a, f x) + ∑ x ∈ Finset.Ico a b, f x :=
        (Finset.sum_Ico_consecutive f (Nat.zero_le a) h).symm
    _ = _ := by rw [← Finset.range_eq_Ico, Finset.sum_Ico_eq_sum_range]

theorem sum_range_mul32 (q : Nat) (f : Nat → Nat) :
    ∑ x ∈ Finset.range (32 * q), f x =
      ∑ j ∈ Finset.range q, ∑ r ∈ Finset.range 32, f (32 * j + r) := by
  induction q with
  | zero => simp
  | succ n ih =>
    rw [Finset.sum_range_succ, ← ih, show 32 * (n + 1) = 32 * n + 32 by ring,
      sum_range_split (32 * n) (32 * n + 32) f (by omega), Nat.add_sub_cancel_left]

theorem sum_reflect32 (word : Nat) :
    ∑ r ∈ Finset.range 32, (word.testBit (31 - r)).toNat = wordByteSum word := by
  rw [wordByteSum_eq]
  have h := Finset.sum_range_reflect (fun b => (word.testBit b).toNat) 32
  rw [← h]

theorem endmask_testBit (e b : Nat) (hb : b < 32) :
    (endmaskOf e).testBit b = decide (32 - e ≤ b) := by
  unfold endmaskOf
  rw [Nat.testBit_mod_two_pow, Nat.testBit_shiftLeft,
    show (0xffffffff : Nat) = 2 ^ 32 - 1 by norm_num, Nat.testBit_two_pow_sub_one]
  have : b - (32 - e) < 32 := by omega
  simp [hb, this]

theorem pixCountRow_eq (p : PixB) (i : Nat) :
    pixCountRow p i = ∑ x ∈ Finset.range p.w, getBit p x i := by
  have hgb : ∀ x : Nat, getBit p x i =
      ((wordAt p i (x / 32)).testBit (31 - x % 32)).toNat := by
    intro x
    rw [getBit, shift_and_one]; rfl
  have hfull : ∀ q : Nat, ∑ x ∈ Finset.range (32 * q), getBit p x i =
      ∑ j ∈ Finset.range q, wordByteSum (wordAt p i j) := by
    intro q
    rw [sum_range_mul32]
    refine Finset.sum_congr rfl fun j _ => ?_
    have hterm : ∀ r ∈ Finset.range 32, getBit p (32 * j + r) i =
        ((wordAt p i j).testBit (31 - r)).toNat := by
      intro r hr
      have hr32 : r < 32 := Finset.mem_range.mp hr
      rw [hgb]
      have h1 : (32 * j + r) / 32 = j := by omega
      have h2 : (32 * j + r) % 32 = r := by omega
      rw [h1, h2]
    rw [Finset.sum_congr rfl hterm, sum_reflect32]
  have hmask : ∀ (word e : Nat), 0 < e → e < 32 →
      wordByteSum (word &&& endmaskOf e) =
        ∑ r ∈ Finset.range e, (word.testBit (31 - r)).toNat := by
    intro word e he1 he2
    rw [← sum_reflect32]
    have key : ∀ r ∈ Finset.range 32,
        ((word &&& endmaskOf e).testBit (31 - r)).toNat =
          if r < e then (word.testBit (31 - r)).toNat else 0 := by
      intro r hr
      have hr32 : r < 32 := Finset.mem_range.mp hr
      rw [Nat.testBit_and, endmask_testBit e (31 - r) (by omega)]
      by_cases hre : r < e
      · have hle : 32 - e ≤ 31 - r := by omega
        simp [hre, hle]
      · have hle : ¬(32 - e ≤ 31 - r) := by omega
        simp [hre, hle]
    rw [Finset.sum_congr rfl key]
    have hsub : ∑ r ∈ Finset.range e, (if r < e then (word.testBit (31 - r)).toNat else 0) =
        ∑ r ∈ Finset.range 32, (if r < e then (word.testBit (31 - r)).toNat else 0) :=
      Finset.sum_subset (Finset.range_subset.mpr (by omega))
        (fun x _ hx => if_neg (fun hlt => hx (Finset.mem_range.mpr hlt)))
    rw [← hsub]
    exact Finset.sum_congr rfl fun r hr => if_pos (Finset.mem_range.mp hr)
  simp only [pixCountRow]
  by_cases he : p.w % 32 = 0
  · rw [if_neg (show ¬(p.w % 32 ≠ 0) by omega)]
    have hw : p.w = 32 * (p.w / 32) := by omega
    calc (∑ j ∈ Finset.range (p.w / 32), wordByteSum (wordAt p i j)) + 0
        = ∑ j ∈ Finset.range (p.w / 32), wordByteSum (wordAt p i j) := by omega
      _ = ∑ x ∈ Finset.range (32 * (p.w / 32)), getBit p x i := (hfull _).symm
      _ = ∑ x ∈ Finset.range p.w, getBit p x i := by rw [← hw]
  · rw [if_pos (show p.w % 32 ≠ 0 from he)]
    have hle : 32 * (p.w / 32) ≤ p.w := by omega
    rw [sum_range_split (32 * (p.w / 32)) p.w _ hle, ← hfull]
    congr 1
    have hsub : p.w - 32 * (p.w / 32) = p.w % 32 := by omega
    rw [hmask _ _ (by omega) (by omega), hsub]
    refine Finset.sum_congr rfl fun r hr => ?_
    have hr32 : r < p.w % 32 := Finset.mem_range.mp hr
    rw [hgb]
    have h1 : (32 * (p.w / 32) + r) / 32 = p.w / 32 := by omega
    have h2 : (32 * (p.w / 32) + r) % 32 = r := by omega
    rw [h1, h2]

theorem pixCountPixels_eq (p : PixB) (hd : p.d = 1) :
    pixCountPixels p = some (onPixelCount p) := by
  unfold pixCountPixels onPixelCount
  rw [if_neg (by simp [hd])]
  exact congrArg some (Finset.sum_congr rfl fun i _ => pixCountRow_eq p i)

/-- C3: For every 1 bpp buffer, `pixCountPixels` returns exactly the number
of ON pixels lying within the image width -- whether or not the width is a
multiple of 32 -- because the final partial word of each row is masked with
`0xFFFFFFFF << (32 - (width mod 32))` before the byte-wise popcount-table
summation, so padding bits never contribute. -/
theorem countSetBits_counts_in_width_pixels (p : PixB) (hd : p.d = 1) :
    pixCountPixels p = some (onPixelCount p) :=
  pixCountPixels_eq p hd

/-- C3 (witness): a width-33 buffer whose last-word padding bits are all set
in the second row; the count is 36, not 36 + 31 padding bits. -/
theorem countSetBits_witness :
    pixCountPixels ⟨33, 2, 1, 2, [0x80000001, 0x80000000, 0xFFFFFFFF, 0xFFFFFFFF]⟩ =
      some (onPixelCount ⟨33, 2, 1, 2, [0x80000001, 0x80000000, 0xFFFFFFFF, 0xFFFFFFFF]⟩) ∧
    onPixelCount ⟨33, 2, 1, 2, [0x80000001, 0x80000000, 0xFFFFFFFF, 0xFFFFFFFF]⟩ = 36 :=
  ⟨countSetBits_counts_in_width_pixels _ rfl, by decide⟩

/-! ### C4: pixThresholdPixels agrees with the full count -/

theorem list_sum_map_range (f : Nat → Nat) (n : Nat) :
    ((List.range n).map f).sum = ∑ i ∈ Finset.range n, f i := by
  induction n with
  | zero => simp
  | succ m ih => rw [List.range_succ, Finset.sum_range_succ, List.map_append, List.sum_append, ih]; simp

theorem thresholdRows_eq (p : PixB) (thresh : Int) :
    ∀ (l : List Nat) (sum : Nat), l ≠ [] →
      thresholdRows p thresh l sum =
        decide (thresh < ((sum + (l.map (pixCountRow p)).sum : Nat) : Int))
  | [], _, h => absurd rfl h
  | i :: rest, sum, _ => by
    unfold thresholdRows
    by_cases hc : thresh < ((sum + pixCountRow p i : Nat) : Int)
    · rw [if_pos hc]
      have hle : (sum + pixCountRow p i) ≤ sum + ((i :: rest).map (pixCountRow p)).sum := by
        simp only [List.map_cons, List.sum_cons]; omega
      have htot : thresh < ((sum + ((i :: rest).map (pixCountRow p)).sum : Nat) : Int) :=
        lt_of_lt_of_le hc (by exact_mod_cast hle)
      exact (decide_eq_true htot).symm
    · rw [if_neg hc]
      cases rest with
      | nil =>
        unfold thresholdRows
        simp only [List.map_cons, List.map_nil, List.sum_cons, List.sum_nil, Nat.add_zero]
        exact (decide_eq_false hc).symm
      | cons b t =>
        rw [thresholdRows_eq p thresh (b :: t) (sum + pixCountRow p i) (by simp)]
        simp only [List.map_cons, List.sum_cons, Nat.add_assoc]

theorem pixThresholdPixels_eq (p : PixB) (thresh : Int) (hd : p.d = 1) (hh : 0 < p.h) :
    pixThresholdPixels p thresh = some (decide (thresh < (onPixelCount p : Int))) := by
  unfold pixThresholdPixels
  rw [if_neg (by simp [hd])]
  rw [thresholdRows_eq p thresh (List.range p.h) 0 (by simp; omega)]
  have hcount : ∑ i ∈ Finset.range p.h, pixCountRow p i = onPixelCount p :=
    Finset.sum_congr rfl fun i _ => pixCountRow_eq p i
  rw [Nat.zero_add, list_sum_map_range, hcount]

/-- C4: For every 1 bpp buffer (a buffer has at least one row) and every
threshold, `pixThresholdPixels` reports `above = true` exactly when the total
number of ON pixels exceeds the threshold: the early return, taken once the
running sum exceeds the threshold, never changes the returned boolean
relative to a complete `pixCountPixels` scan. -/
theorem thresholdEarlyExit_matches_count (p : PixB) (thresh : Int)
    (hd : p.d = 1) (hh : 0 < p.h) :
    pixThresholdPixels p thresh = some (decide (thresh < (onPixelCount p : Int))) :=
  pixThresholdPixels_eq p thresh hd hh

set_option maxRecDepth 40000 in
/-- C4 (witness): a 1 bpp buffer of 1000 pixels with 50 set bits and
threshold 10: the result is `true`. -/
theorem thresholdEarlyExit_witness :
    pixThresholdPixels ⟨1000, 1, 1, 32, [0xFFFFFFFF, 0x3FFFF]⟩ 10 =
      some (decide ((10 : Int) < (onPixelCount ⟨1000, 1, 1, 32, [0xFFFFFFFF, 0x3FFFF]⟩ : Int))) ∧
    onPixelCount ⟨1000, 1, 1, 32, [0xFFFFFFFF, 0x3FFFF]⟩ = 50 ∧
    pixThresholdPixels ⟨1000, 1, 1, 32, [0xFFFFFFFF, 0x3FFFF]⟩ 10 = some true :=
  ⟨thresholdEarlyExit_matches_count _ 10 rfl (by decide), by decide, by decide⟩

/-! ### C10: the depth-1 gray histogram ignores the sampling factor -/

/-- C10: For every 1 bpp buffer and every subsampling factor of at least 1,
`pixGetGrayHistogram` returns the two-entry histogram
`[width*height - popcount, popcount]` computed over all pixels of the image:
at depth 1 the subsampling factor is ignored (the result does not depend on
it), unlike at depths 2, 4, 8 and 16 where pixels are tallied at the
factor's stride. -/
theorem grayHistogram_d1_counts_all_pixels (p : PixB) (factor : Nat)
    (hd : p.d = 1) (hf : 1 ≤ factor) :
    pixGetGrayHistogram p factor =
      some [p.w * p.h - onPixelCount p, onPixelCount p] := by
  unfold pixGetGrayHistogram
  rw [if_neg (by omega), if_neg (by omega), if_pos hd, pixCountPixels_eq p hd]

/-- C10 (witness): a 33x2 buffer at factor 5 still counts all 66 pixels. -/
theorem grayHistogram_d1_witness :
    pixGetGrayHistogram ⟨33, 2, 1, 2, [0x80000001, 0x80000000, 0xFFFFFFFF, 0x0]⟩ 5 =
      some [66 - onPixelCount ⟨33, 2, 1, 2, [0x80000001, 0x80000000, 0xFFFFFFFF, 0x0]⟩,
            onPixelCount ⟨33, 2, 1, 2, [0x80000001, 0x80000000, 0xFFFFFFFF, 0x0]⟩] ∧
    onPixelCount ⟨33, 2, 1, 2, [0x80000001, 0x80000000, 0xFFFFFFFF, 0x0]⟩ = 35 :=
  ⟨grayHistogram_d1_counts_all_pixels _ 5 rfl (by decide), by decide⟩

/-! ### C5: pixSubtract computes src1 AND NOT(src2) in all four aliasing cases -/

theorem getD_range_map {α : Type} (n : Nat) (f : Nat → α) (i : Nat) (d : α)
    (h : i < n) : ((List.range n).map f).getD i d = f i := by
  simp [List.getD, List.getElem?_map, List.getElem?_range h]

theorem getPx_rasteropNot (s : PixG) (x y : Nat) (hx : x < s.w) (hy : y < s.h) :
    getPx (rasteropNot s) x y = pxNot s.d (getPx s x y) := by
  unfold getPx rasteropNot
  rw [getD_range_map s.h _ y [] hy, getD_range_map s.w _ x 0 hx]
  rfl

theorem subtract_cases_eq_claim (s1 s2 : PixG)
    (hw : s1.w = s2.w) (hh : s1.h = s2.h) (hd : s1.d = s2.d) :
    (pixSubtract .fresh s1 s2).px = subtractClaim s1 s2 ∧
    (pixSubtract .eqS1 s1 s2).px = subtractClaim s1 s2 ∧
    (pixSubtract .eqS2 s1 s2).px = subtractClaim s1 s2 ∧
    (∀ q : PixG, (pixSubtract (.other q) s1 s2).px = subtractClaim s1 s2) ∧
    (pixAnd .fresh s1 (pixInvert .fresh s2)).px = subtractClaim s1 s2 := by
  have hmain : (rasteropOp s1 s2 (fun dv sv => dv &&& pxNot s1.d sv)).px =
      subtractClaim s1 s2 := by
    unfold rasteropOp subtractClaim
    refine List.map_congr_left fun y hy => List.map_congr_left fun x hx => ?_
    have hx1 : x < s1.w := List.mem_range.mp hx
    have hy1 : y < s1.h := List.mem_range.mp hy
    rw [if_pos ⟨by omega, by omega⟩]
  refine ⟨hmain, hmain, ?_, fun _ => hmain, ?_⟩
  · show (rasteropOp s2 s1 _).px = _
    unfold rasteropOp subtractClaim
    rw [← hw, ← hh]
    refine List.map_congr_left fun y hy => List.map_congr_left fun x hx => ?_
    have hx1 : x < s1.w := List.mem_range.mp hx
    have hy1 : y < s1.h := List.mem_range.mp hy
    rw [if_pos ⟨by omega, by omega⟩, ← hd, Nat.and_comm]
  · show (rasteropOp s1 (rasteropNot s2) _).px = _
    unfold rasteropOp subtractClaim
    refine List.map_congr_left fun y hy => List.map_congr_left fun x hx => ?_
    have hx1 : x < s1.w := List.mem_range.mp hx
    have hy1 : y < s1.h := List.mem_range.mp hy
    have hcond : x < (rasteropNot s2).w ∧ y < (rasteropNot s2).h := ⟨by
      show x < s2.w; omega, by show y < s2.h; omega⟩
    rw [if_pos hcond, getPx_rasteropNot s2 x y (by omega) (by omega), hd]

/-- C5: For every two equal-size, equal-depth buffers, `pixSubtract` returns,
bit for bit, `src1 AND NOT(src2)` -- equal to `pixAnd(src1, pixInvert(src2))`
-- in all four destination cases: destination absent, aliased to `src1`,
aliased to `src2`, or a distinct pre-existing buffer; in particular aliasing
the destination to `src2` (which runs the rasterop with the reversed op
`PIX_NOT(PIX_DST) & PIX_SRC`) still yields `src1 AND NOT(src2)`. -/
theorem subtract_is_and_not (s1 s2 : PixG)
    (hw : s1.w = s2.w) (hh : s1.h = s2.h) (hd : s1.d = s2.d) :
    (pixSubtract .fresh s1 s2).px = subtractClaim s1 s2 ∧
    (pixSubtract .eqS1 s1 s2).px = subtractClaim s1 s2 ∧
    (pixSubtract .eqS2 s1 s2).px = subtractClaim s1 s2 ∧
    (∀ q : PixG, (pixSubtract (.other q) s1 s2).px = subtractClaim s1 s2) ∧
    (pixAnd .fresh s1 (pixInvert .fresh s2)).px = subtractClaim s1 s2 :=
  subtract_cases_eq_claim s1 s2 hw hh hd

/-- C5 (witness): a concrete 2x1 pair, including the `dst == src2` case. -/
theorem subtract_is_and_not_witness :
    (pixSubtract .eqS2 ⟨2, 1, 1, none, [[1, 0]]⟩ ⟨2, 1, 1, none, [[1, 1]]⟩).px =
      subtractClaim ⟨2, 1, 1, none, [[1, 0]]⟩ ⟨2, 1, 1, none, [[1, 1]]⟩ ∧
    subtractClaim ⟨2, 1, 1, none, [[1, 0]]⟩ ⟨2, 1, 1, none, [[1, 1]]⟩ = [[0, 0]] :=
  ⟨(subtract_is_and_not ⟨2, 1, 1, none, [[1, 0]]⟩ ⟨2, 1, 1, none, [[1, 1]]⟩
      rfl rfl rfl).2.2.1, by decide⟩

/-! ### C7: pixRotate90 swaps dimensions and round-trips -/

theorem px_gen_eq_self (p : PixG) (hlen : p.px.length = p.h)
    (hrow : ∀ row ∈ p.px, row.length = p.w) :
    (List.range p.h).map (fun i => (List.range p.w).map (fun j => getPx p j i)) =
      p.px := by
  apply List.ext_getElem
  · simp [hlen]
  · intro i h1 h2
    rw [List.getElem_map, List.getElem_range]
    have hi : i < p.h := by simpa using h1
    have hrl : p.px[i].length = p.w := hrow _ (List.getElem_mem h2)
    apply List.ext_getElem
    · simp [hrl]
    · intro j h3 h4
      rw [List.getElem_map, List.getElem_range]
      unfold getPx
      have e1 : p.px.getD i [] = p.px[i] := by
        rw [List.getD_eq_getElem?_getD, List.getElem?_eq_getElem h2]; rfl
      rw [e1, List.getD_eq_getElem?_getD, List.getElem?_eq_getElem h4]; rfl

/-- C7: For every buffer of depth in {1,2,4,8,16,32} (with a well-formed
pixel matrix), `pixRotate90` produces an output whose dimensions are swapped
relative to the source, preserving depth and colormap; and rotating
clockwise (direction 1) then counter-clockwise (direction -1) returns a
buffer equal to the original input. -/
theorem rotate90_swaps_and_roundtrips (p : PixG)
    (hd : p.d = 1 ∨ p.d = 2 ∨ p.d = 4 ∨ p.d = 8 ∨ p.d = 16 ∨ p.d = 32)
    (hlen : p.px.length = p.h) (hrow : ∀ row ∈ p.px, row.length = p.w) :
    (pixRotate90 p 1).map PixG.w = some p.h ∧
    (pixRotate90 p 1).map PixG.h = some p.w ∧
    (pixRotate90 p 1).map PixG.d = some p.d ∧
    (pixRotate90 p 1).map PixG.cmap = some p.cmap ∧
    ((pixRotate90 p 1).bind (fun q => pixRotate90 q (-1))) = some p := by
  have hq : pixRotate90 p 1 =
      some { w := p.h, h := p.w, d := p.d, cmap := p.cmap,
             px := rotate90Low p p.h p.w 1 } := by
    unfold pixRotate90
    rw [if_neg (not_not_intro hd), if_neg (by simp)]
  refine ⟨by rw [hq]; rfl, by rw [hq]; rfl, by rw [hq]; rfl, by rw [hq]; rfl, ?_⟩
  rw [hq]
  show pixRotate90 _ (-1) = some p
  unfold pixRotate90
  rw [if_neg (not_not_intro (by simpa using hd)), if_neg (by simp)]
  refine congrArg some ?_
  show PixG.mk p.w p.h p.d p.cmap _ = p
  have hpx : rotate90Low { w := p.h, h := p.w, d := p.d, cmap := p.cmap,
                           px := rotate90Low p p.h p.w 1 } p.w p.h (-1) = p.px := by
    unfold rotate90Low
    rw [← px_gen_eq_self p hlen hrow]
    refine List.map_congr_left fun i hi => List.map_congr_left fun j hj => ?_
    have hip : i < p.h := List.mem_range.mp hi
    have hjp : j < p.w := List.mem_range.mp hj
    rw [if_neg (by decide)]
    show getPx { w := p.h, h := p.w, d := p.d, cmap := p.cmap,
                 px := rotate90Low p p.h p.w 1 } (p.h - 1 - i) j = getPx p j i
    unfold getPx rotate90Low
    simp only
    rw [getD_range_map p.w _ j [] hjp, getD_range_map p.h _ (p.h - 1 - i) 0 (by omega)]
    rw [if_pos trivial]
    have hins : p.h - 1 - (p.h - 1 - i) = i := by omega
    rw [hins]
    rfl
  cases p with
  | mk w h d cmap px => simpa using hpx

/-- C7 (witness): a concrete 2x3 8 bpp buffer with a colormap. -/
theorem rotate90_witness :
    ((pixRotate90 ⟨2, 3, 8, some [(0, 0, 0)], [[1, 2], [3, 4], [5, 6]]⟩ 1).bind
      (fun q => pixRotate90 q (-1))) =
        some ⟨2, 3, 8, some [(0, 0, 0)], [[1, 2], [3, 4], [5, 6]]⟩ ∧
    (pixRotate90 ⟨2, 3, 8, some [(0, 0, 0)], [[1, 2], [3, 4], [5, 6]]⟩ 1).map PixG.px =
      some [[5, 3, 1], [6, 4, 2]] :=
  ⟨(rotate90_swaps_and_roundtrips ⟨2, 3, 8, some [(0, 0, 0)], [[1, 2], [3, 4], [5, 6]]⟩
      (by decide) (by decide) (by decide)).2.2.2.2, by decide⟩

/-! ### C6: Gauss-Jordan elimination and the bilinear identity mapping

Two invariants are maintained through elimination: `B = A · e` for the
candidate solution `e` (row operations are linear, so they preserve it), and
after processing column `k` the first `k` columns of `A` are identity
columns.  After all eight columns, `A` is the identity and `B` is `e`. -/

theorem findPivot_spec (A : Mat8) (k r : Fin 8) (h : findPivot A k = some r) :
    k ≤ r ∧ A r k ≠ 0 := by
  have hp := List.find?_some h
  simpa using hp

theorem swapIdx_at_k (r k : Fin 8) : swapIdx r k k = r := by
  unfold swapIdx
  by_cases h : k = r
  · rw [if_pos h, h]
  · rw [if_neg h, if_pos rfl]

theorem row_scale_algebra (b e : Vec8) (p : ℚ) :
    ∑ j, (b j / p) * e j = (∑ j, b j * e j) / p := by
  rw [Finset.sum_div]
  exact Finset.sum_congr rfl fun j _ => by ring

theorem row_elim_algebra (a b e : Vec8) (c p : ℚ) :
    ∑ j, (a j - c * (b j / p)) * e j =
      (∑ j, a j * e j) - c * ((∑ j, b j * e j) / p) := by
  simp only [sub_mul]
  rw [Finset.sum_sub_distrib]
  congr 1
  rw [Finset.sum_div, Finset.mul_sum]
  exact Finset.sum_congr rfl fun j _ => by ring

theorem elimStep_P (e : Vec8) (st st' : Mat8 × Vec8) (k : Fin 8)
    (hP : ∀ i, st.2 i = ∑ j, st.1 i j * e j)
    (h : elimStep st k = some st') :
    ∀ i, st'.2 i = ∑ j, st'.1 i j * e j := by
  unfold elimStep at h
  cases hf : findPivot st.1 k with
  | none => rw [hf] at h; exact absurd h (by simp)
  | some r =>
    rw [hf] at h
    simp only [Option.some.injEq] at h
    intro i
    rw [← h]
    simp only
    have hswap : ∀ i', st.2 (swapIdx r k i') =
        ∑ j, st.1 (swapIdx r k i') j * e j := fun i' => hP (swapIdx r k i')
    by_cases hik : i = k
    · subst hik
      simp only [eq_self_iff_true, if_true]
      rw [row_scale_algebra (fun j => st.1 (swapIdx r i i) j) e, ← hswap i]
    · simp only [if_neg hik]
      rw [row_elim_algebra (fun j => st.1 (swapIdx r k i) j)
        (fun j => st.1 (swapIdx r k k) j) e _ _, ← hswap i, ← hswap k]

theorem elimStep_Q (st st' : Mat8 × Vec8) (k : Fin 8) (n : Nat)
    (hk : (k : Nat) = n)
    (hQ : ∀ j : Fin 8, (j : Nat) < n → ∀ i, st.1 i j = if i = j then 1 else 0)
    (h : elimStep st k = some st') :
    ∀ j : Fin 8, (j : Nat) < n + 1 → ∀ i, st'.1 i j = if i = j then 1 else 0 := by
  unfold elimStep at h
  cases hf : findPivot st.1 k with
  | none => rw [hf] at h; exact absurd h (by simp)
  | some r =>
    rw [hf] at h
    simp only [Option.some.injEq] at h
    obtain ⟨hkr, hp0⟩ := findPivot_spec st.1 k r hf
    have hkr' : (k : Nat) ≤ (r : Nat) := hkr
    have hQA : ∀ j : Fin 8, (j : Nat) < n → ∀ i,
        st.1 (swapIdx r k i) j = if i = j then 1 else 0 := by
      intro j hj i
      rw [hQ j hj (swapIdx r k i)]
      by_cases hir : i = r
      · simp only [swapIdx, if_pos hir]
        rw [if_neg (Fin.ne_of_val_ne (show (k : Nat) ≠ (j : Nat) by omega)),
          if_neg (show i ≠ j by
            rw [hir]; exact Fin.ne_of_val_ne (by omega))]
      · by_cases hik : i = k
        · simp only [swapIdx, if_neg hir, if_pos hik]
          rw [if_neg (Fin.ne_of_val_ne (show (r : Nat) ≠ (j : Nat) by omega)),
            if_neg (show i ≠ j by
              rw [hik]; exact Fin.ne_of_val_ne (by omega))]
        · simp only [swapIdx, if_neg hir, if_neg hik]
    intro j hj i
    rw [← h]
    simp only
    by_cases hjn : (j : Nat) < n
    · have hAkj : st.1 (swapIdx r k k) j = 0 := by
        rw [hQA j hjn k, if_neg (Fin.ne_of_val_ne (show (k : Nat) ≠ (j : Nat) by omega))]
      by_cases hik : i = k
      · rw [if_pos hik, hAkj, zero_div, hik,
          if_neg (Fin.ne_of_val_ne (show (k : Nat) ≠ (j : Nat) by omega))]
      · rw [if_neg hik, hAkj, zero_div, mul_zero, sub_zero]
        exact hQA j hjn i
    · have hjk : j = k := Fin.ext (by omega)
      rw [hjk]
      have hp0' : st.1 (swapIdx r k k) k ≠ 0 := by
        rw [swapIdx_at_k]; exact hp0
      by_cases hik : i = k
      · rw [if_pos hik, div_self hp0', hik, if_pos rfl]
      · rw [if_neg hik, div_self hp0', mul_one, sub_self, if_neg hik]

theorem gaussjordan_solution (A : Mat8) (B : Vec8) (e : Vec8)
    (hP : ∀ i, B i = ∑ j, A i j * e j) (c : Vec8)
    (h : gaussjordan A B = some c) : c = e := by
  unfold gaussjordan at h
  obtain ⟨s1, h1, h⟩ := Option.bind_eq_some.mp h
  obtain ⟨s2, h2, h⟩ := Option.bind_eq_some.mp h
  obtain ⟨s3, h3, h⟩ := Option.bind_eq_some.mp h
  obtain ⟨s4, h4, h⟩ := Option.bind_eq_some.mp h
  obtain ⟨s5, h5, h⟩ := Option.bind_eq_some.mp h
  obtain ⟨s6, h6, h⟩ := Option.bind_eq_some.mp h
  obtain ⟨s7, h7, h⟩ := Option.bind_eq_some.mp h
  obtain ⟨s8, h8, hc⟩ := Option.map_eq_some'.mp h
  have hP1 := elimStep_P e (A, B) s1 0 hP h1
  have hP2 := elimStep_P e s1 s2 1 hP1 h2
  have hP3 := elimStep_P e s2 s3 2 hP2 h3
  have hP4 := elimStep_P e s3 s4 3 hP3 h4
  have hP5 := elimStep_P e s4 s5 4 hP4 h5
  have hP6 := elimStep_P e s5 s6 5 hP5 h6
  have hP7 := elimStep_P e s6 s7 6 hP6 h7
  have hP8 := elimStep_P e s7 s8 7 hP7 h8
  have hQ0 : ∀ j : Fin 8, (j : Nat) < 0 → ∀ i, (A, B).1 i j = if i = j then 1 else 0 :=
    fun _ hj => absurd hj (Nat.not_lt_zero _)
  have hQ1 := elimStep_Q (A, B) s1 0 0 rfl hQ0 h1
  have hQ2 := elimStep_Q s1 s2 1 1 rfl hQ1 h2
  have hQ3 := elimStep_Q s2 s3 2 2 rfl hQ2 h3
  have hQ4 := elimStep_Q s3 s4 3 3 rfl hQ3 h4
  have hQ5 := elimStep_Q s4 s5 4 4 rfl hQ4 h5
  have hQ6 := elimStep_Q s5 s6 5 5 rfl hQ5 h6
  have hQ7 := elimStep_Q s6 s7 6 6 rfl hQ6 h7
  have hQ8 := elimStep_Q s7 s8 7 7 rfl hQ7 h8
  funext i
  rw [← hc, hP8 i,
    Finset.sum_congr rfl fun j _ => by rw [hQ8 j j.isLt i]]
  simp [ite_mul, one_mul, zero_mul, Finset.sum_ite_eq]

theorem buildB_eq_buildA_mul_ident (pts : List (ℚ × ℚ)) :
    ∀ i, buildB pts i =
      ∑ j, buildA pts i j * (fun j : Fin 8 => identCoeffs.getD (j : Nat) 0) j := by
  intro i
  fin_cases i <;> rw [Fin.sum_univ_eight]
  · show (pts.getD 0 (0, 0)).1 =
      (pts.getD 0 (0, 0)).1 * 1 + (pts.getD 0 (0, 0)).2 * 0 +
        (pts.getD 0 (0, 0)).1 * (pts.getD 0 (0, 0)).2 * 0 + 1 * 0 +
        0 * 0 + 0 * 1 + 0 * 0 + 0 * 0
    ring
  · show (pts.getD 0 (0, 0)).2 =
      0 * 1 + 0 * 0 + 0 * 0 + 0 * 0 + (pts.getD 0 (0, 0)).1 * 0 +
        (pts.getD 0 (0, 0)).2 * 1 + (pts.getD 0 (0, 0)).1 * (pts.getD 0 (0, 0)).2 * 0 +
        1 * 0
    ring
  · show (pts.getD 1 (0, 0)).1 =
      (pts.getD 1 (0, 0)).1 * 1 + (pts.getD 1 (0, 0)).2 * 0 +
        (pts.getD 1 (0, 0)).1 * (pts.getD 1 (0, 0)).2 * 0 + 1 * 0 +
        0 * 0 + 0 * 1 + 0 * 0 + 0 * 0
    ring
  · show (pts.getD 1 (0, 0)).2 =
      0 * 1 + 0 * 0 + 0 * 0 + 0 * 0 + (pts.getD 1 (0, 0)).1 * 0 +
        (pts.getD 1 (0, 0)).2 * 1 + (pts.getD 1 (0, 0)).1 * (pts.getD 1 (0, 0)).2 * 0 +
        1 * 0
    ring
  · show (pts.getD 2 (0, 0)).1 =
      (pts.getD 2 (0, 0)).1 * 1 + (pts.getD 2 (0, 0)).2 * 0 +
        (pts.getD 2 (0, 0)).1 * (pts.getD 2 (0, 0)).2 * 0 + 1 * 0 +
        0 * 0 + 0 * 1 + 0 * 0 + 0 * 0
    ring
  · show (pts.getD 2 (0, 0)).2 =
      0 * 1 + 0 * 0 + 0 * 0 + 0 * 0 + (pts.getD 2 (0, 0)).1 * 0 +
        (pts.getD 2 (0, 0)).2 * 1 + (pts.getD 2 (0, 0)).1 * (pts.getD 2 (0, 0)).2 * 0 +
        1 * 0
    ring
  · show (pts.getD 3 (0, 0)).1 =
      (pts.getD 3 (0, 0)).1 * 1 + (pts.getD 3 (0, 0)).2 * 0 +
        (pts.getD 3 (0, 0)).1 * (pts.getD 3 (0, 0)).2 * 0 + 1 * 0 +
        0 * 0 + 0 * 1 + 0 * 0 + 0 * 0
    ring
  · show (pts.getD 3 (0, 0)).2 =
      0 * 1 + 0 * 0 + 0 * 0 + 0 * 0 + (pts.getD 3 (0, 0)).1 * 0 +
        (pts.getD 3 (0, 0)).2 * 1 + (pts.getD 3 (0, 0)).1 * (pts.getD 3 (0, 0)).2 * 0 +
        1 * 0
    ring

/-- Evaluation of the sampled transform's coordinate map at the identity
coefficients: the transformed point of `(x, y)` is `(x, y)` itself, since
`⌊x + 1/2⌋ = x`. -/
theorem ident_xform (x y : Nat) :
    bilinearXformSampledPt identCoeffs x y = ((x : Int), (y : Int)) := by
  have hfloor : ∀ n : Nat, ctrunc ((n : ℚ) + 1 / 2) = (n : Int) := by
    intro n
    unfold ctrunc
    rw [if_neg (by push_neg; positivity)]
    have hrw : ((n : ℚ) + 1 / 2) = (1 / 2 : ℚ) + (n : Int) := by push_cast; ring
    rw [hrw, Int.floor_add_int]
    norm_num
  unfold bilinearXformSampledPt
  have hx : identCoeffs.getD 0 0 * (x : ℚ) + identCoeffs.getD 1 0 * y +
      identCoeffs.getD 2 0 * (x * y) + identCoeffs.getD 3 0 + 1 / 2 =
        (x : ℚ) + 1 / 2 := by
    simp [identCoeffs, List.getD]
  have hy : identCoeffs.getD 4 0 * (x : ℚ) + identCoeffs.getD 5 0 * y +
      identCoeffs.getD 6 0 * (x * y) + identCoeffs.getD 7 0 + 1 / 2 =
        (y : ℚ) + 1 / 2 := by
    simp [identCoeffs, List.getD]
  rw [hx, hy, hfloor x, hfloor y]

/-- C6 (amended): When the 4 source and 4 destination correspondence points
are identical, any successful run of `getBilinearXformCoeffs` yields the
identity coefficient vector `[1,0,0,0,0,1,0,0]`; and applying
`pixBilinearSampled` with these coefficients reproduces the source image
exactly for depths 2, 4, 8, 32, and for depth 1 with
`incolor = L_BRING_IN_WHITE` on a non-colormapped source.  (At depth 1 with
`L_BRING_IN_BLACK` the pass only sets bits over an all-ON initialization, so
the source is not reproduced; see the counterexample.) -/
theorem bilinear_identity_amended :
    (∀ pts : List (ℚ × ℚ),
      match getBilinearXformCoeffs pts pts with
      | some c => c = identCoeffs
      | none => True) ∧
    (∀ (p : PixG) (incolor : Incolor),
      (p.d = 2 ∨ p.d = 4 ∨ p.d = 8 ∨ p.d = 32 ∨
        (p.d = 1 ∧ incolor = .white ∧ p.cmap = none)) →
      p.px.length = p.h → (∀ row ∈ p.px, row.length = p.w) →
      (∀ row ∈ p.px, ∀ v ∈ row, v < 2 ^ p.d) →
      (pixBilinearSampled p identCoeffs incolor).map PixG.px = some p.px) := by
  constructor
  · intro pts
    cases hgj : gaussjordan (buildA pts) (buildB pts) with
    | none => simp [getBilinearXformCoeffs, hgj]
    | some cv =>
      have hcv : cv = fun j : Fin 8 => identCoeffs.getD (j : Nat) 0 :=
        gaussjordan_solution (buildA pts) (buildB pts) _
          (buildB_eq_buildA_mul_ident pts) cv hgj
      simp only [getBilinearXformCoeffs, hgj, Option.map_some', hcv]
      rfl
  · intro p incolor hcase hlen hrowlen hval
    unfold pixBilinearSampled
    rw [if_pos (by rcases hcase with h | h | h | h | ⟨h, _, _⟩ <;> simp [h])]
    rw [Option.map_some']
    refine congrArg some ?_
    show (List.range p.h).map _ = p.px
    rw [← px_gen_eq_self p hlen hrowlen]
    refine List.map_congr_left fun i hi => List.map_congr_left fun j hj => ?_
    have hip : i < p.h := List.mem_range.mp hi
    have hjp : j < p.w := List.mem_range.mp hj
    simp only [ident_xform]
    rw [if_neg (by push_neg; refine ⟨by omega, by omega, by omega, by omega⟩)]
    simp only [Int.toNat_natCast]
    rcases hcase with h | h | h | h | ⟨h1, hwhite, hcmap⟩
    · rw [if_neg (by omega)]
    · rw [if_neg (by omega)]
    · rw [if_neg (by omega)]
    · rw [if_neg (by omega)]
    · rw [if_pos h1]
      have hbg : sampledInit p incolor = 0 := by
        unfold sampledInit
        rw [hcmap]
        rw [if_pos (Or.inl ⟨h1, hwhite⟩)]
      rw [hbg]
      have hv2 : getPx p j i < 2 := by
        have h2 : i < p.px.length := by omega
        have e1 : p.px.getD i [] = p.px[i] := by
          rw [List.getD_eq_getElem?_getD, List.getElem?_eq_getElem h2]; rfl
        have hrl : p.px[i].length = p.w := hrowlen _ (List.getElem_mem h2)
        have h4 : j < p.px[i].length := by omega
        have e2 : getPx p j i = p.px[i][j] := by
          unfold getPx
          rw [e1, List.getD_eq_getElem?_getD, List.getElem?_eq_getElem h4]; rfl
        rw [e2]
        have hvb := hval _ (List.getElem_mem h2) _ (List.getElem_mem h4)
        rw [h1] at hvb
        norm_num at hvb
        omega
      by_cases hz : getPx p j i = 0
      · rw [if_neg (by omega)]
        omega
      · rw [if_pos hz]
        omega

/-- C6 (witness): the coefficient part at a concrete quadruple (the unit
square held fixed) on which the Gauss-Jordan solve succeeds, yielding the
identity coefficients; and the exact-reproduction part at a concrete 2x1
8 bpp buffer. -/
theorem bilinear_identity_witness :
    getBilinearXformCoeffs [((0 : ℚ), (0 : ℚ)), (1, 0), (0, 1), (1, 1)]
        [((0 : ℚ), (0 : ℚ)), (1, 0), (0, 1), (1, 1)] = some identCoeffs ∧
    (pixBilinearSampled ⟨2, 1, 8, none, [[7, 200]]⟩ identCoeffs .black).map PixG.px =
      some [[7, 200]] := by
  constructor
  · have h := bilinear_identity_amended.1 [((0 : ℚ), (0 : ℚ)), (1, 0), (0, 1), (1, 1)]
    revert h
    cases hgj : getBilinearXformCoeffs [((0 : ℚ), (0 : ℚ)), (1, 0), (0, 1), (1, 1)]
        [((0 : ℚ), (0 : ℚ)), (1, 0), (0, 1), (1, 1)] with
    | none => exact fun _ => absurd hgj (by with_unfolding_all decide)
    | some c => exact fun h => congrArg some h
  · exact bilinear_identity_amended.2 ⟨2, 1, 8, none, [[7, 200]]⟩ .black (by norm_num)
      (by decide) (by decide) (by decide)

/-- C6 (counterexample): with the identity coefficient vector that the claim
asserts, `pixBilinearSampled` on a 1x1 1 bpp image whose only pixel is OFF,
with `incolor = L_BRING_IN_BLACK`, produces an ON pixel: the destination is
initialized all-ON and the depth-1 path only sets bits, so the source is not
reproduced exactly even though nothing is clipped. -/
theorem bilinear_identity_counterexample :
    (pixBilinearSampled ⟨1, 1, 1, none, [[0]]⟩ identCoeffs .black).map PixG.px =
      some [[1]] ∧ [[(1 : Nat)]] ≠ [[(0 : Nat)]] := by
  constructor
  · unfold pixBilinearSampled
    rw [if_pos (Or.inl rfl)]
    rw [Option.map_some']
    refine congrArg some ?_
    simp only [ident_xform]
    norm_num [sampledInit, getPx]
    decide
  · decide

/-! ### C9: pixGetAverageMasked fails exactly on an empty sample set -/

theorem map_const_one_sum {α : Type} (l : List α) :
    (l.map (fun _ => (1 : Nat))).sum = l.length := by
  induction l with
  | nil => rfl
  | cons a t ih => simp [ih, Nat.add_comm]

theorem flatMap_map_sum {α β M : Type} [AddCommMonoid M] (l : List α)
    (f : α → List β) (g : β → M) :
    ((l.flatMap f).map g).sum = (l.map (fun a => ((f a).map g).sum)).sum := by
  induction l with
  | nil => rfl
  | cons a t ih => simp [List.flatMap_cons, ih]

theorem filterMap_map_sum {α β M : Type} [AddCommMonoid M] (l : List α)
    (f : α → Option β) (g : β → M) :
    ((l.filterMap f).map g).sum = (l.map (fun a => ((f a).map g).getD 0)).sum := by
  induction l with
  | nil => rfl
  | cons a t ih =>
    cases hf : f a <;> simp [List.filterMap_cons, hf, ih]

theorem strideSum {M : Type} [AddCommMonoid M] (n f : Nat) (g : Nat → M) :
    ((strideIdx n f).map g).sum =
      ∑ i ∈ Finset.range n, if i % f = 0 then g i else 0 := by
  unfold strideIdx
  induction n with
  | zero => rfl
  | succ m ih =>
    rw [List.range_succ, List.filter_append, List.map_append, List.sum_append,
      Finset.sum_range_succ, ih]
    by_cases h : m % f = 0 <;> simp [h]

theorem sampledVals_sum {M : Type} [AddCommMonoid M] (p : PixG) (pm : Option PixG)
    (x y : Int) (factor : Nat) (g : Nat → M) :
    ((sampledVals p pm x y factor).map g).sum = specSampleSum p pm x y factor g := by
  cases pm with
  | none =>
    unfold sampledVals specSampleSum
    rw [flatMap_map_sum]
    simp only [List.map_map]
    rw [strideSum]
    refine Finset.sum_congr rfl fun i _ => ?_
    by_cases hi : i % factor = 0
    · rw [if_pos hi, strideSum]
      refine Finset.sum_congr rfl fun j _ => ?_
      by_cases hj : j % factor = 0
      · rw [if_pos hj, if_pos ⟨hi, hj⟩]; rfl
      · rw [if_neg hj, if_neg (fun hc => hj hc.2)]
    · rw [if_neg hi]
      exact (Finset.sum_eq_zero fun j _ => if_neg (fun hc => hi hc.1)).symm
  | some m =>
    unfold sampledVals specSampleSum
    rw [flatMap_map_sum]
    simp only [List.map_map]
    rw [strideSum]
    refine Finset.sum_congr rfl fun i _ => ?_
    by_cases hi : i % factor = 0
    · rw [if_pos hi]
      by_cases hclip : y + (i : Int) < 0 ∨ (p.h : Int) ≤ y + (i : Int)
      · show ((if _ then ([] : List Nat) else _).map g).sum = _
        rw [if_pos hclip]
        exact (Finset.sum_eq_zero fun j _ =>
          if_neg (fun hc => by
            obtain ⟨_, _, h1, h2, _⟩ := hc
            omega)).symm
      · show ((if _ then ([] : List Nat) else _).map g).sum = _
        rw [if_neg hclip]
        rw [filterMap_map_sum, strideSum]
        refine Finset.sum_congr rfl fun j _ => ?_
        by_cases hj : j % factor = 0
        · rw [if_pos hj]
          by_cases hcx : x + (j : Int) < 0 ∨ (p.w : Int) ≤ x + (j : Int)
          · rw [if_pos hcx]
            rw [if_neg (fun hc => by
              obtain ⟨_, _, _, _, h1, h2, _⟩ := hc
              omega)]
            rfl
          · rw [if_neg hcx]
            by_cases hmask : getPx m j i ≠ 0
            · rw [if_pos hmask,
                if_pos ⟨hi, hj, by omega, by omega, by omega, by omega, hmask⟩]
              rfl
            · rw [if_neg hmask, if_neg (fun hc => hmask hc.2.2.2.2.2.2)]
              rfl
        · rw [if_neg hj, if_neg (fun hc => hj hc.2.1)]
    · rw [if_neg hi]
      exact (Finset.sum_eq_zero fun j _ => if_neg (fun hc => hi hc.1)).symm

/-- C9: `pixGetAverageMasked`, called with valid arguments (8 bpp or
colormapped source, optional 1 bpp mask, sampling factor at least 1), fails
exactly when the set of sampled pixels -- under the mask and clipped to the
image, or all subsampled pixels when no mask is given -- is empty.  A
colormapped source is first expanded to a gray buffer of the same
dimensions, so the sampled index set is that of the source itself; on
success the result holds `mean = E[x]`, `meansq = E[x^2]`,
`variance = E[x^2] - E[x]^2` over exactly the sampled pixels of the gray
buffer, and the reported statistic is the mean, `sqrt(E[x^2])` (rms),
`sqrt(variance)` (stddev), or the variance. -/
theorem averageMasked_fails_iff_empty (p : PixG) (pm : Option PixG) (x y : Int)
    (factor : Nat) (hd : p.d = 8 ∨ p.cmap ≠ none) (hm : ∀ m ∈ pm, m.d = 1)
    (hf : 1 ≤ factor) :
    ((removeColormapToGray p).w = p.w ∧ (removeColormapToGray p).h = p.h) ∧
    (pixGetAverageMasked p pm x y factor = none ↔
      specSampleSum (removeColormapToGray p) pm x y factor (fun _ => (1 : Nat)) = 0) ∧
    ∀ r, pixGetAverageMasked p pm x y factor = some r →
      r.count = specSampleSum (removeColormapToGray p) pm x y factor (fun _ => (1 : Nat)) ∧
      r.ave = specSampleSum (removeColormapToGray p) pm x y factor (fun v => (v : ℚ)) /
        (r.count : ℚ) ∧
      r.meansq = specSampleSum (removeColormapToGray p) pm x y factor (fun v => (v : ℚ) * v) /
        (r.count : ℚ) ∧
      r.var = r.meansq - r.ave * r.ave ∧
      avgStatValue .meanAbsval r = (r.ave : ℝ) ∧
      avgStatValue .rootMeanSquare r = Real.sqrt (r.meansq : ℝ) ∧
      avgStatValue .standardDeviation r = Real.sqrt (r.var : ℝ) ∧
      avgStatValue .variance r = (r.var : ℝ) := by
  have hlen : (sampledVals (removeColormapToGray p) pm x y factor).length =
      specSampleSum (removeColormapToGray p) pm x y factor (fun _ => (1 : Nat)) := by
    rw [← sampledVals_sum, map_const_one_sum]
  refine ⟨?_, ?_⟩
  · obtain ⟨w, h, d, cmap, px⟩ := p
    cases cmap with
    | none => exact ⟨rfl, rfl⟩
    | some cm => exact ⟨rfl, rfl⟩
  unfold pixGetAverageMasked
  rw [if_neg (by rcases hd with h | h <;> simp [h])]
  rw [if_neg (by
    cases pm with
    | none => simp
    | some m => simp [hm m rfl])]
  rw [if_neg (by omega)]
  constructor
  · by_cases hz : (sampledVals (removeColormapToGray p) pm x y factor).length = 0
    · rw [if_pos hz]
      simp [← hlen, hz]
    · rw [if_neg hz]
      constructor
      · intro hc; exact absurd hc (by simp)
      · intro hs; exact absurd (hlen.trans hs) hz
  · intro r hr
    by_cases hz : (sampledVals (removeColormapToGray p) pm x y factor).length = 0
    · rw [if_pos hz] at hr; exact absurd hr (by simp)
    · rw [if_neg hz] at hr
      have hr' := (Option.some.injEq _ _).mp hr
      rw [← hr']
      refine ⟨hlen, ?_, ?_, rfl, rfl, rfl, rfl, rfl⟩
      · show ((sampledVals (removeColormapToGray p) pm x y factor).map
              (fun (v : Nat) => (v : ℚ))).sum /
            ((sampledVals (removeColormapToGray p) pm x y factor).length : ℚ) = _
        rw [sampledVals_sum]
      · show ((sampledVals (removeColormapToGray p) pm x y factor).map
              (fun (v : Nat) => (v : ℚ) * v)).sum /
            ((sampledVals (removeColormapToGray p) pm x y factor).length : ℚ) = _
        rw [sampledVals_sum]

/-- C9 (witness): a 2x2 colormapped 4 bpp source with a mask selecting one
pixel, exercising the colormap-expansion branch. -/
theorem averageMasked_witness :
    (pixGetAverageMasked ⟨2, 2, 4, some [(0, 0, 0), (60, 90, 30)], [[0, 1], [0, 0]]⟩
        (some ⟨2, 2, 1, none, [[0, 1], [0, 0]]⟩) 0 0 1 = none ↔
      specSampleSum
        (removeColormapToGray ⟨2, 2, 4, some [(0, 0, 0), (60, 90, 30)], [[0, 1], [0, 0]]⟩)
        (some ⟨2, 2, 1, none, [[0, 1], [0, 0]]⟩) 0 0 1 (fun _ => (1 : Nat)) = 0) ∧
    specSampleSum
      (removeColormapToGray ⟨2, 2, 4, some [(0, 0, 0), (60, 90, 30)], [[0, 1], [0, 0]]⟩)
      (some ⟨2, 2, 1, none, [[0, 1], [0, 0]]⟩) 0 0 1 (fun _ => (1 : Nat)) = 1 :=
  ⟨(averageMasked_fails_iff_empty
      ⟨2, 2, 4, some [(0, 0, 0), (60, 90, 30)], [[0, 1], [0, 0]]⟩
      (some ⟨2, 2, 1, none, [[0, 1], [0, 0]]⟩) 0 0 1 (Or.inr (by decide))
      (fun m hm => by cases hm; rfl) (by decide)).2.1, by decide⟩

end Lept
